import Mathlib

/-!
# caddy-tlsfirestore: lease lock manager and encrypted store

A shallow embedding of `locker.go`, `crypto.go`, `helpers.go`, `certificate.go`
and of `Store`, `Load`, `Delete`, `Exists`, `List` and `Stat` of `storage.go`.

Conventions of the embedding

* An instant (`time.Time`) is an `Int`: nanoseconds since the Unix epoch.
  `Time.Add` is addition and `Time.After` is `>`.
* A `time.Duration` is a signed 64-bit count of nanoseconds; arithmetic on
  durations wraps (`wrap64`), as Go integer arithmetic does.
* Go's `int` is taken to be 64 bits wide.
* A Go `error` result is an `Option Err`; `none` is `nil`.
* The Firestore collection is an association list from document identifier to
  `Record`. The outcome the network gives to a remote call is an explicit
  argument (`Net`); a call that fails leaves the collection as it was.
* Every `time.Now()` reading an operation takes is an explicit argument.
* A call that panics at run time ends in `Res.crash`.
* Strings are taken by characters; the separators `/` and `\` are single bytes, so
  the Go functions on bytes and these on characters agree.
* A float64 in `[0, 1)` is `mant / 2 ^ (53 + exp)` with `mant < 2 ^ 53`; float64
  products are exact integer products rounded to 53 bits (`round53`).
-/

namespace Storagefirestore

/-! ## Errors -/

/-- The error a done context reports from `ctx.Err()`. -/
inductive CtxErr where
  | Canceled
  | DeadlineExceeded
deriving DecidableEq, Repr

/-- Go `error` values that occur in the package.
`alreadyLocked` is the sentinel `errAlreadyLocked`; `grpc code` is an error of the
Firestore client with that gRPC status code; `errorf msg` is `fmt.Errorf` without
`%w`; `wrapf msg inner` is `fmt.Errorf("<msg>: %w", inner)`; `ctx e` is `ctx.Err()`;
`notExist inner` is `certmagic.ErrNotExist(inner)`, the does-not-exist outcome. -/
inductive Err where
  | alreadyLocked
  | grpc (code : Nat)
  | errorf (msg : String)
  | wrapf (msg : String) (inner : Err)
  | ctx (e : CtxErr)
  | notExist (inner : Err)
deriving DecidableEq, Repr

/-- Status code `codes.Canceled`. -/
def codeCanceled : Nat := 1

/-- Status code `codes.NotFound`. -/
def codeNotFound : Nat := 5

/-- Status code `codes.AlreadyExists`. -/
def codeAlreadyExists : Nat := 6

/-- Source `IsDocNotFound`: `status.Code(err) == codes.NotFound`. Only an error of the
client carries a status code other than `Unknown`. -/
def IsDocNotFound : Err → Bool
  | .grpc code => decide (code = codeNotFound)
  | _ => false

/-! ## Time (`helpers.go`) -/

/-- Two's complement wrap of an integer to the signed 64-bit range. -/
def wrap64 (x : Int) : Int := (x + 9223372036854775808) % 18446744073709551616 - 9223372036854775808

/-- Value of `time.Millisecond`, in nanoseconds. -/
def Millisecond : Int := 1000000

/-- Value of `time.Second`, in nanoseconds. -/
def Second : Int := 1000000000

/-- Source `UTCNow`: `time.Now().UTC().Truncate(time.Millisecond)`, for the wall
clock reading `wall` of `time.Now()`. -/
def UTCNow (wall : Int) : Int := wall - wall % Millisecond

/-! ## Data model (`certificate.go`, `storage.go`) -/

/-- Source `Record`: the fields of one remote document. -/
structure Record where
  Raw : List UInt8
  Locked : Bool
  LockedAt : Int
  CreatedAt : Int
  UpdatedAt : Int
deriving DecidableEq, Repr

/-- Source `Storage`: the configuration fields that `locker.go` and `crypto.go`
read, and the local lock table (the project, collection and secret identifiers,
the client and the logger are left out; the mutex `m` has no counterpart, every
operation being one atomic step). `locks` maps a key to its cancel function,
named by the cancellation signal that calling it fires. -/
structure Storage where
  MinPollSeconds : Int
  MaxPollSeconds : Int
  FreshnessSeconds : Int
  AesKey : List UInt8
  locks : List (String × Nat)
deriving DecidableEq, Repr

/-- Source `New`, with the `Default...` constants of `storage.go`. -/
def New : Storage :=
  { MinPollSeconds := 1, MaxPollSeconds := 5, FreshnessSeconds := 5, AesKey := [], locks := [] }

/-! ## Staleness (`locker.go`) -/

/-- The duration `time.Second * time.Duration(s.FreshnessSeconds) * 2` of `isStale`,
evaluated left to right in 64-bit arithmetic. -/
def staleAfter (s : Storage) : Int :=
  wrap64 (wrap64 (Second * wrap64 s.FreshnessSeconds) * 2)

/-- Source `isStale`: `UTCNow().After(mTime.Add(staleAfter))`; `wall` is the clock
reading of its `UTCNow()`. -/
def isStale (s : Storage) (mTime : Int) (wall : Int) : Bool :=
  decide (UTCNow wall > mTime + staleAfter s)

/-! ## The remote collection (Firestore client) -/

/-- The documents of the collection, by document identifier. -/
abbrev Remote := List (String × Record)

/-- The outcome the network gives to one remote operation: the status code with
which its read phase (begin / get) fails, and the one with which its write phase
(commit / update) fails; `none` when the phase goes through. -/
structure Net where
  read : Option Nat
  write : Option Nat
deriving DecidableEq, Repr

/-- A network on which every call goes through. -/
def Net.up : Net := { read := none, write := none }

/-- The document stored under `id`, if any. -/
def docGet : Remote → String → Option Record
  | [], _ => none
  | (k, v) :: rest, id => if k = id then some v else docGet rest id

/-- Replace the document stored under `id`. -/
def docSet : Remote → String → Record → Remote
  | [], _, _ => []
  | (k, v) :: rest, id, w => if k = id then (k, w) :: rest else (k, v) :: docSet rest id w

/-- Firestore `Get` of a document (`t.Get(ref)`, `ref.Get(ctx)`): `NotFound` when
there is no document. -/
def remoteGet (net : Net) (remote : Remote) (id : String) : Except Err Record :=
  match net.read with
  | some code => .error (.grpc code)
  | none =>
    match docGet remote id with
    | none => .error (.grpc codeNotFound)
    | some doc => .ok doc

/-- Firestore `Create` of a document, as committed: `AlreadyExists` when there is one. -/
def remoteCreate (net : Net) (remote : Remote) (id : String) (doc : Record) : Except Err Remote :=
  match net.write with
  | some code => .error (.grpc code)
  | none =>
    match docGet remote id with
    | some _ => .error (.grpc codeAlreadyExists)
    | none => .ok (remote ++ [(id, doc)])

/-- Firestore `Update` of some fields of a document (`t.Update`, `ref.Update`), as
committed: `NotFound` when there is no document; `patch` sets the named fields. -/
def remoteUpdate (net : Net) (remote : Remote) (id : String) (patch : Record → Record) :
    Except Err Remote :=
  match net.write with
  | some code => .error (.grpc code)
  | none =>
    match docGet remote id with
    | none => .error (.grpc codeNotFound)
    | some doc => .ok (docSet remote id (patch doc))

/-! ## Keys (`locker.go`) -/

/-- Source `firestoreSafeKey`: `strings.ReplaceAll(key, "/", "\\")`. -/
def firestoreSafeKey (key : String) : String :=
  String.mk (key.data.map (fun c => if c = '/' then '\\' else c))

/-! ## Contexts and the process -/

/-- A cancellation signal: one a caller of the package controls (cancel function or
deadline of a context it made), or the cancel function `lockLocal` made. -/
inductive Signal where
  | caller (n : Nat)
  | lock (n : Nat)
deriving DecidableEq, Repr

/-- A `context.Context`, as the signals that end it: its own and those of its
ancestors. `context.Background()` is `[]`. -/
abbrev Ctx := List Signal

/-- Whether `ctx.Done()` is closed when the signals `fired` have fired. -/
def ctxDone (fired : List Signal) (ctx : Ctx) : Bool :=
  ctx.any (fun sig => decide (sig ∈ fired))

/-- A goroutine started by `go s.keepLockFresh(ctx, key)`. -/
structure Task where
  ctx : Ctx
  key : String
deriving DecidableEq, Repr

/-- One process: its `Storage`, the next unused cancel function of `lockLocal`,
the signals that have fired, and the renewal goroutines it has started. -/
structure Proc where
  s : Storage
  fresh : Nat
  fired : List Signal
  tasks : List Task
deriving DecidableEq, Repr

/-- A process that has just made its `Storage` with `New`. -/
def Proc.init : Proc := { s := New, fresh := 0, fired := [], tasks := [] }

/-! ## Local lock table (`locker.go`) -/

/-- Map lookup `s.locks[key]`. -/
def locksGet : List (String × Nat) → String → Option Nat
  | [], _ => none
  | (k, h) :: rest, key => if k = key then some h else locksGet rest key

/-- Map removal `delete(s.locks, key)`. -/
def locksDelete (locks : List (String × Nat)) (key : String) : List (String × Nat) :=
  locks.filter (fun e => decide (e.1 ≠ key))

/-- Source `hasLockLocal`. -/
def hasLockLocal (s : Storage) (key : String) : Bool :=
  (locksGet s.locks key).isSome

/-- Source `lockLocal`: makes a child of `parent` with a new cancel function, puts
the cancel function in the table and returns the child context. -/
def lockLocal (p : Proc) (parent : Ctx) (key : String) : Proc × Ctx :=
  ({ p with
      s := { p.s with locks := (key, p.fresh) :: locksDelete p.s.locks key }
      fresh := p.fresh + 1 },
   Signal.lock p.fresh :: parent)

/-- Source `unlockLocal`: calls the cancel function of `key` and removes the entry. -/
def unlockLocal (p : Proc) (key : String) : Proc × Bool :=
  match locksGet p.s.locks key with
  | some h =>
    ({ p with
        s := { p.s with locks := locksDelete p.s.locks key }
        fired := Signal.lock h :: p.fired }, true)
  | none => (p, false)

/-! ## Acquiring and releasing (`locker.go`) -/

/-- The function `attemptLock` hands to `RunTransaction`, together with the commit
of the write it buffers. `check` is the clock reading of the `UTCNow()` inside
`isStale` (taken only when the document is locked), `write` the reading of the
`UTCNow()` whose value is written. -/
def attemptLockTx (s : Storage) (net : Net) (id : String) (check write : Int)
    (remote : Remote) : Except Err Remote :=
  match remoteGet net remote id with
  | .error err =>
    if IsDocNotFound err then
      let now := UTCNow write
      remoteCreate net remote id
        { Raw := [], Locked := true, LockedAt := now, CreatedAt := now, UpdatedAt := now }
    else .error err
  | .ok cert =>
    if cert.Locked && !isStale s cert.LockedAt check then .error .alreadyLocked
    else remoteUpdate net remote id (fun doc => { doc with Locked := true, LockedAt := UTCNow write })

/-- Source `attemptLock`: the error it returns, the process and the collection
afterwards. On success the renewal goroutine is started on the context that
`lockLocal` returns. -/
def attemptLock (p : Proc) (net : Net) (ctx : Ctx) (key : String) (check write : Int)
    (remote : Remote) : Option Err × Proc × Remote :=
  if hasLockLocal p.s key then (none, p, remote)
  else
    match attemptLockTx p.s net (firestoreSafeKey key) check write remote with
    | .error err =>
      if err = Err.alreadyLocked then (some err, p, remote)
      else (some (.wrapf ("unable to lock " ++ key) err), p, remote)
    | .ok remote' =>
      let pc := lockLocal p ctx key
      (none, { pc.1 with tasks := { ctx := pc.2, key := key } :: pc.1.tasks }, remote')

/-- Source `Unlock`; `wall` is the clock reading of its `UTCNow()`. The update runs
on `context.Background()`. -/
def Unlock (p : Proc) (net : Net) (key : String) (wall : Int) (remote : Remote) :
    Option Err × Proc × Remote :=
  match unlockLocal p key with
  | (p', false) => (some (.errorf ("lock " ++ key ++ " was not found")), p', remote)
  | (p', true) =>
    match remoteUpdate net remote (firestoreSafeKey key)
        (fun doc => { doc with Locked := false, LockedAt := UTCNow wall }) with
    | .error err => (some (.wrapf ("unable to unlock " ++ key) err), p', remote)
    | .ok remote' => (none, p', remote')

/-! ## Renewal (`locker.go`) -/

/-- Source `updateFreshness`: a direct update of `lockedAt` on `ctx`. A call on a
context that is done fails with `Canceled` and writes nothing. -/
def updateFreshness (net : Net) (fired : List Signal) (ctx : Ctx) (key : String) (wall : Int)
    (remote : Remote) : Option Err × Remote :=
  if ctxDone fired ctx then (some (.grpc codeCanceled), remote)
  else
    match remoteUpdate net remote (firestoreSafeKey key)
        (fun doc => { doc with LockedAt := UTCNow wall }) with
    | .error err => (some err, remote)
    | .ok remote' => (none, remote')

/-- The case of the `select` in `keepLockFresh` that is tried. -/
inductive Wake where
  | timer
  | done
deriving DecidableEq, Repr

/-- What one wake-up of the renewal goroutine meets: the case tried, the network,
the clock and the signals that have fired by then. -/
structure Tick where
  wake : Wake
  net : Net
  wall : Int
  fired : List Signal

/-- One pass of the `for`/`select` loop of `keepLockFresh`: whether the loop goes
on, and the collection afterwards. The `ctx.Done()` case is taken only when the
context is done; otherwise the goroutine keeps waiting. -/
def keepLockFreshPass (t : Task) (ev : Tick) (remote : Remote) : Bool × Remote :=
  match ev.wake with
  | .timer =>
    match updateFreshness ev.net ev.fired t.ctx t.key ev.wall remote with
    | (some _, remote') => (false, remote')
    | (none, remote') => (true, remote')
  | .done => if ctxDone ev.fired t.ctx then (false, remote) else (true, remote)

/-- Source `keepLockFresh` over the wake-ups `evs`: whether the goroutine is still
in its loop after them, and the collection afterwards. -/
def keepLockFresh (t : Task) : List Tick → Remote → Bool × Remote
  | [], remote => (true, remote)
  | ev :: evs, remote =>
    match keepLockFreshPass t ev remote with
    | (false, remote') => (false, remote')
    | (true, remote') => keepLockFresh t evs remote'

/-! ## Blocking acquisition (`locker.go`) -/

/-- What one pass of the loop of `Lock` meets: the collection and network at the
attempt, its clock readings, and `abort`: the `ctx.Err()` when `ctx.Done()` ends
the backoff sleep, `none` when the timer does. -/
structure Round where
  remote : Remote
  net : Net
  check : Int
  write : Int
  abort : Option CtxErr

/-- Source `sleepOrAbort`: true when the `ctx.Done()` case of its `select` fires. -/
def sleepOrAbort (abort : Option CtxErr) : Bool := abort.isSome

/-- Result of `ctx.Err()`: `nil` unless the context is done. -/
def ctxErr (abort : Option CtxErr) : Option Err := abort.map Err.ctx

/-- Source `Lock` over the passes `rounds` of its loop: `none` while it is still
looping after them, else the error returned, the process and the collection the
last attempt left. -/
def Lock (p : Proc) (ctx : Ctx) (key : String) : List Round → Option (Option Err × Proc × Remote)
  | [] => none
  | r :: rounds =>
    match attemptLock p r.net ctx key r.check r.write r.remote with
    | (none, p', remote') => some (none, p', remote')
    | (some err, p', remote') =>
      if err ≠ Err.alreadyLocked then some (some err, p', remote')
      else
        if sleepOrAbort r.abort then some (ctxErr r.abort, p', remote')
        else Lock p' ctx key rounds

/-! ## Encryption (`crypto.go`) -/

/-- The `cipher.AEAD` of the Go standard library, as `crypto.go` uses it (no
additional data): `Seal nonce plaintext` is the sealed box that `gcm.Seal` appends
to its destination, `Open nonce box` the plaintext, or `none` when authentication
fails. -/
structure AEAD where
  NonceSize : Nat
  Seal : List UInt8 → List UInt8 → List UInt8
  Open : List UInt8 → List UInt8 → Option (List UInt8)

/-- The contract of an AEAD: opening a sealed box with the nonce it was sealed
with, a nonce of the right size, gives the plaintext back. -/
def AEAD.Lawful (gcm : AEAD) : Prop :=
  ∀ nonce plaintext : List UInt8, nonce.length = gcm.NonceSize →
    gcm.Open nonce (gcm.Seal nonce plaintext) = some plaintext

/-- Result of a call that can also end in a run-time panic. -/
inductive Res (α : Type) where
  | ok (a : α)
  | err (e : Err)
  | crash (msg : String)
deriving DecidableEq, Repr

/-- Source `getAESGCM`: `aes.NewCipher` accepts keys of 16, 24 and 32 bytes only;
`aesgcm key` is the AEAD that `cipher.NewGCM` makes of the cipher of a valid key. -/
def getAESGCM (aesgcm : List UInt8 → AEAD) (s : Storage) : Except Err AEAD :=
  if s.AesKey.length = 16 ∨ s.AesKey.length = 24 ∨ s.AesKey.length = 32 then
    .ok (aesgcm s.AesKey)
  else
    .error (.wrapf "unable to create AES cipher"
      (.errorf ("crypto/aes: invalid key size " ++ toString s.AesKey.length)))

/-- Read of `n` bytes with `io.ReadFull(rand.Reader, buf)`; `entropy` is what the
reader has to give. -/
def readFull (entropy : List UInt8) (n : Nat) : Except Err (List UInt8) :=
  if n ≤ entropy.length then .ok (entropy.take n) else .error (.errorf "unexpected EOF")

/-- Source `encrypt`: `gcm.Seal(nonce, nonce, plaintext, nil)` appends the sealed box
to the nonce. -/
def encrypt (aesgcm : List UInt8 → AEAD) (s : Storage) (entropy : List UInt8)
    (plaintext : List UInt8) : Except Err (List UInt8) :=
  match getAESGCM aesgcm s with
  | .error err => .error err
  | .ok gcm =>
    match readFull entropy gcm.NonceSize with
    | .error err => .error (.wrapf "unable to generate nonce" err)
    | .ok nonce => .ok (nonce ++ gcm.Seal nonce plaintext)

/-- Source `decrypt`. The slice expressions `ciphertext[:n]` and `ciphertext[n:]`
panic when the input is shorter than the nonce size `n`. -/
def decrypt (aesgcm : List UInt8 → AEAD) (s : Storage) (ciphertext : List UInt8) :
    Res (List UInt8) :=
  match getAESGCM aesgcm s with
  | .error err => .err err
  | .ok gcm =>
    if ciphertext.length < gcm.NonceSize then .crash "slice bounds out of range"
    else
      match gcm.Open (ciphertext.take gcm.NonceSize) (ciphertext.drop gcm.NonceSize) with
      | none => .err (.wrapf "decryption failure" (.errorf "cipher: message authentication failed"))
      | some out => .ok out

/-- A small AEAD that keeps the contract, to instantiate the library with: the box
is the nonce followed by the plaintext, and opening checks that leading nonce. -/
def sampleAEAD (_key : List UInt8) : AEAD :=
  { NonceSize := 12
    Seal := fun nonce plaintext => nonce ++ plaintext
    Open := fun nonce box =>
      if box.take nonce.length = nonce then some (box.drop nonce.length) else none }

/-! ## Values (`storage.go`) -/

/-- The zero `time.Time` (January 1 of year 1, UTC), in nanoseconds since the Unix
epoch: the value of a timestamp field that was never set. -/
def zeroTime : Int := -62135596800000000000

/-- Removal of the document stored under `id`. -/
def docDelete (remote : Remote) (id : String) : Remote :=
  remote.filter (fun e => decide (e.1 ≠ id))

/-- Firestore `Delete` of a document in a transaction, as committed. -/
def remoteDelete (net : Net) (remote : Remote) (id : String) : Except Err Remote :=
  match net.write with
  | some code => .error (.grpc code)
  | none => .ok (docDelete remote id)

/-- The function `Store` hands to `RunTransaction`, with the commit of the write
it buffers; `wall` is the clock reading of its `UTCNow()`. -/
def storeTx (net : Net) (id : String) (ciphertext : List UInt8) (wall : Int)
    (remote : Remote) : Except Err Remote :=
  match remoteGet net remote id with
  | .error err =>
    if IsDocNotFound err then
      let now := UTCNow wall
      remoteCreate net remote id
        { Raw := ciphertext, Locked := false, LockedAt := zeroTime, CreatedAt := now,
          UpdatedAt := now }
    else .error err
  | .ok _ =>
    remoteUpdate net remote id (fun doc => { doc with UpdatedAt := UTCNow wall, Raw := ciphertext })

/-- Source `Store`: the error it returns and the collection afterwards. -/
def Store (aesgcm : List UInt8 → AEAD) (s : Storage) (net : Net) (entropy : List UInt8)
    (key : String) (value : List UInt8) (wall : Int) (remote : Remote) : Option Err × Remote :=
  match encrypt aesgcm s entropy value with
  | .error err => (some err, remote)
  | .ok ciphertext =>
    match storeTx net (firestoreSafeKey key) ciphertext wall remote with
    | .error err => (some err, remote)
    | .ok remote' => (none, remote')

/-- Source `loadAndDecrypt`: the record with `Raw` replaced by the plaintext. -/
def loadAndDecrypt (aesgcm : List UInt8 → AEAD) (s : Storage) (net : Net) (remote : Remote)
    (key : String) : Res Record :=
  match remoteGet net remote (firestoreSafeKey key) with
  | .error err => if IsDocNotFound err then .err (.notExist err) else .err err
  | .ok cert =>
    match decrypt aesgcm s cert.Raw with
    | .err err => .err err
    | .crash msg => .crash msg
    | .ok plaintext => .ok { cert with Raw := plaintext }

/-- Source `Load`. -/
def Load (aesgcm : List UInt8 → AEAD) (s : Storage) (net : Net) (remote : Remote)
    (key : String) : Res (List UInt8) :=
  match loadAndDecrypt aesgcm s net remote key with
  | .err err => .err err
  | .crash msg => .crash msg
  | .ok c => .ok c.Raw

/-- Source `Delete`: the error it returns and the collection afterwards. -/
def Delete (net : Net) (remote : Remote) (key : String) : Option Err × Remote :=
  match remoteGet net remote (firestoreSafeKey key) with
  | .error err =>
    if IsDocNotFound err then (some (.notExist err), remote) else (some err, remote)
  | .ok _ =>
    match remoteDelete net remote (firestoreSafeKey key) with
    | .error err => (some err, remote)
    | .ok remote' => (none, remote')

/-- Source `Exists`: whether the `Get` of the document returns no error. -/
def StorageExists (net : Net) (remote : Remote) (key : String) : Bool :=
  match remoteGet net remote (firestoreSafeKey key) with
  | .error _ => false
  | .ok _ => true

/-- The `certmagic.KeyInfo` that `Stat` returns. -/
structure KeyInfo where
  Key : String
  Modified : Int
  Size : Int
  IsTerminal : Bool
deriving DecidableEq, Repr

/-- Source `Stat`. -/
def Stat (aesgcm : List UInt8 → AEAD) (s : Storage) (net : Net) (remote : Remote)
    (key : String) : Res KeyInfo :=
  match loadAndDecrypt aesgcm s net remote key with
  | .err err => .err err
  | .crash msg => .crash msg
  | .ok c => .ok { Key := key, Modified := c.UpdatedAt, Size := c.Raw.length, IsTerminal := false }

/-! ## Listing (`storage.go`) -/

/-- The reverse key mapping in `List`: `strings.ReplaceAll(snapshot.Ref.ID, "\\", "/")`. -/
def logicalKey (id : String) : String :=
  String.mk (id.data.map (fun c => if c = '\\' then '/' else c))

/-- Go `strings.HasPrefix`. -/
def hasPrefix (s p : String) : Bool := p.data.isPrefixOf s.data

/-- Go `strings.TrimPrefix`. -/
def trimPrefix (s p : String) : String :=
  if hasPrefix s p then String.mk (s.data.drop p.data.length) else s

/-- Go `strings.Split(s, "/")`. -/
def splitSlash (s : String) : List String :=
  (s.data.splitOn '/').map String.mk

/-- One element of the path in Go `path.Clean`: empty and `.` elements are dropped,
`..` removes the element before it (or stays, at the start of a path that is not
rooted), any other element is kept. -/
def cleanStep (rooted : Bool) (out : List (List Char)) (seg : List Char) : List (List Char) :=
  if seg = [] ∨ seg = ['.'] then out
  else if seg = ['.', '.'] then
    match out.getLast? with
    | some last => if last = ['.', '.'] then out ++ [seg] else out.dropLast
    | none => if rooted then out else out ++ [seg]
  else out ++ [seg]

/-- Go `path.Clean`, after the rules of its documentation. -/
def pathClean (p : String) : String :=
  let rooted := decide (p.data.head? = some '/')
  let out := (p.data.splitOn '/').foldl (cleanStep rooted) []
  let res := (if rooted then ['/'] else []) ++ [('/' : Char)].intercalate out
  if res = [] then "." else String.mk res

/-- Go `path.Join` of two elements: leading empty elements are ignored, the rest is
joined by slashes and cleaned. -/
def pathJoin (a b : String) : String :=
  if a ≠ "" then pathClean (a ++ "/" ++ b)
  else if b ≠ "" then pathClean b
  else ""

/-- Source `List`: the keys and the error it returns. The keys of the map `keysMap`
are taken in one of the orders Go may range over them. -/
def StorageList (net : Net) (remote : Remote) (pfx : String) (recursive : Bool) :
    List String × Option Err :=
  match net.read with
  | some code => ([], some (.grpc code))
  | none =>
    let translatedPrefix := firestoreSafeKey pfx
    let keysFound :=
      (remote.filter (fun e => hasPrefix e.1 translatedPrefix)).map (fun e => logicalKey e.1)
    if keysFound.length = 0 then
      (keysFound, some (.notExist (.errorf ("key " ++ pfx ++ " not found"))))
    else if recursive then (keysFound, none)
    else
      let keysMap :=
        (keysFound.map (fun key => (splitSlash (trimPrefix key (pfx ++ "/"))).headD "")).dedup
      (keysMap.map (fun key => pathJoin pfx key), none)

/-! ## Backoff (`locker.go`) -/

/-- Value of `time.Microsecond`, in nanoseconds. -/
def Microsecond : Int := 1000

/-- The number of low bits of `M` beyond a 53-bit significand: the least `s` with
`M / 2 ^ s < 2 ^ 53`; `fuel` bounds the search and `M` itself is enough. -/
def excessBits : Nat → Nat → Nat
  | 0, _ => 0
  | fuel + 1, M => if M < 9007199254740992 then 0 else excessBits fuel (M / 2) + 1

/-- Rounding of IEEE 754 binary64 arithmetic, on natural numbers: `M` rounded to 53
significant bits, to nearest, ties to even. The product of the float64 values
`a / 2 ^ i` and `b / 2 ^ j` (`a`, `b` of at most 53 bits) is the float64
`round53 (a * b) / 2 ^ (i + j)`, and `float64(n)` of an integer `n ≥ 0` is
`round53 n`, as long as nothing overflows. -/
def round53 (M : Nat) : Nat :=
  let s := excessBits M M
  let q := M / 2 ^ s
  let rem := M % 2 ^ s
  if 2 * rem > 2 ^ s ∨ (2 * rem = 2 ^ s ∧ q % 2 = 1) then (q + 1) * 2 ^ s else q * 2 ^ s

/-- Go conversion of a float64 to `int64` (`time.Duration(x)`), for the float64 of
sign `neg` whose magnitude has integer part `mag`: truncation toward zero; a value
out of range converts to the least `int64` (the result on amd64). -/
def toInt64 (neg : Bool) (mag : Nat) : Int :=
  if mag < 9223372036854775808 then (if neg then -(mag : Int) else (mag : Int))
  else -9223372036854775808

/-- Source `randSleepTime`, for the draw `rand.Float64() = mant / 2 ^ (53 + exp)` with
`mant < 2 ^ 53` (every float64 in `[0, 1)` is of this form). `delta` is the magnitude
of `float64(s.MaxPollSeconds - s.MinPollSeconds)`, `product / 2 ^ (53 + exp)` the
magnitude of `delta * rand.Float64() * float64(time.Millisecond)`. -/
def randSleepTime (s : Storage) (mant exp : Nat) : Int :=
  let deltaInt := wrap64 (wrap64 s.MaxPollSeconds - wrap64 s.MinPollSeconds)
  let delta := round53 deltaInt.natAbs
  let product := round53 (round53 (delta * mant) * 1000000)
  let randTime :=
    wrap64 (Microsecond * toInt64 (decide (deltaInt < 0)) (product / 2 ^ (53 + exp)))
  wrap64 (wrap64 (Second * wrap64 s.MinPollSeconds) + randTime)

/-! ## Paths, in the words of the specification -/

/-- A path element that stands for itself: not empty, not `.` or `..`, without
slash. -/
def plainSegment (seg : List Char) : Prop :=
  seg ≠ [] ∧ seg ≠ ['.'] ∧ seg ≠ ['.', '.'] ∧ '/' ∉ seg

/-- The characters that precede the first segment beyond the prefix `pfx` in a key
under it: `pfx` and a slash, or nothing when `pfx` is empty. -/
def leadOf (pfx : String) : List Char :=
  if pfx = "" then [] else pfx.data ++ ['/']

/-- The key `key` lies under the prefix `pfx` and `seg` is its first path segment
beyond the prefix: `key` is `pfx/seg` or `pfx/seg/...`. -/
def firstSegmentUnder (pfx key : String) (seg : List Char) : Prop :=
  plainSegment seg ∧
    ∃ rest : List Char, key.data = leadOf pfx ++ seg ++ rest ∧ (rest = [] ∨ rest.head? = some '/')

/-- The path `pfx` is a clean relative path: slash-separated plain segments. -/
def cleanPath (pfx : String) : Prop :=
  ∀ seg ∈ pfx.data.splitOn '/', plainSegment seg

/-- The path `entry` is an ancestor path of the key `key`: the key is the entry, or
begins with the entry followed by a slash. -/
def isAncestorPath (entry key : String) : Bool :=
  decide (key = entry) || hasPrefix key (entry ++ "/")

/-! # Theorems -/

/-! ## Staleness -/

/-- Within the range of `time.Duration`, the wrap is the identity. -/
theorem wrap64_of_range (x : Int) (hlo : -9223372036854775808 ≤ x)
    (hhi : x ≤ 9223372036854775807) : wrap64 x = x := by
  unfold wrap64
  omega

/-- When twice the freshness interval fits a `time.Duration`, the duration that
`isStale` adds is `2 * FreshnessSeconds` seconds. -/
theorem staleAfter_of_range (s : Storage) (hlo : -4611686018 ≤ s.FreshnessSeconds)
    (hhi : s.FreshnessSeconds ≤ 4611686018) :
    staleAfter s = 2 * s.FreshnessSeconds * Second := by
  unfold staleAfter wrap64 Second
  omega

/-- C4 (as the claim states it, refuted): with `FreshnessSeconds = 4611686019` the
duration `2 * FreshnessSeconds` seconds overflows `time.Duration` and wraps to a
negative one, so `isStale` is true for a lock taken at this very instant, while
`now > lockedAt + 2 * F` seconds is false. -/
theorem isStale_overflow_counterexample :
    isStale { New with FreshnessSeconds := 4611686019 } 0 0 = true ∧
      ¬ (UTCNow 0 > 0 + 2 * 4611686019 * Second) := by
  decide

/-- C4 (amended): for every `FreshnessSeconds` value `F` with `|F| ≤ 4611686018`
(twice `F` seconds fits a 64-bit nanosecond duration), every `lockedAt` and every
current time, `isStale lockedAt` is true exactly when `now > lockedAt + 2 * F`
seconds; it is false when `now` is `lockedAt + 2 * F` seconds exactly and true one
second past it; with `F = 60` it is false at ages 30s, 60s and 120s and true at
121s. -/
theorem isStale_iff_of_range (s : Storage) (lockedAt wall : Int)
    (hlo : -4611686018 ≤ s.FreshnessSeconds) (hhi : s.FreshnessSeconds ≤ 4611686018) :
    (isStale s lockedAt wall = true ↔ UTCNow wall > lockedAt + 2 * s.FreshnessSeconds * Second) ∧
    (UTCNow wall = lockedAt + 2 * s.FreshnessSeconds * Second → isStale s lockedAt wall = false) ∧
    (UTCNow wall = lockedAt + 2 * s.FreshnessSeconds * Second + Second →
      isStale s lockedAt wall = true) ∧
    (s.FreshnessSeconds = 60 →
      isStale s (UTCNow wall - 30 * Second) wall = false ∧
      isStale s (UTCNow wall - 60 * Second) wall = false ∧
      isStale s (UTCNow wall - 120 * Second) wall = false ∧
      isStale s (UTCNow wall - 121 * Second) wall = true) := by
  have hd := staleAfter_of_range s hlo hhi
  refine ⟨?_, ?_, ?_, ?_⟩
  · simp only [isStale, hd, decide_eq_true_eq]
  · intro h
    simp only [isStale, hd, decide_eq_false_iff_not]
    unfold Second at *
    omega
  · intro h
    simp only [isStale, hd, decide_eq_true_eq]
    unfold Second at *
    omega
  · intro h
    simp only [isStale, hd, decide_eq_true_eq, decide_eq_false_iff_not]
    unfold Second
    omega

/-- Witness of `isStale_iff_of_range`: the `Storage` of the package test
(`FreshnessSeconds = 60`), a lock taken at instant 0 and the clock at 120s. -/
theorem isStale_iff_of_range_witness :
    (isStale { New with FreshnessSeconds := 60 } 0 120000000000 = true ↔
      UTCNow 120000000000 > 0 + 2 * (60 : Int) * Second) ∧
    isStale { New with FreshnessSeconds := 60 } 0 120000000000 = false :=
  have h := isStale_iff_of_range { New with FreshnessSeconds := 60 } 0 120000000000
    (by decide) (by decide)
  ⟨h.1, h.2.1 (by decide)⟩

/-! ## The collection and the lock table -/

/-- The document read back after it was replaced. -/
theorem docGet_docSet_same (remote : Remote) (id : String) (doc w : Record)
    (h : docGet remote id = some doc) : docGet (docSet remote id w) id = some w := by
  induction remote with
  | nil => simp [docGet] at h
  | cons e rest ih =>
    obtain ⟨k, v⟩ := e
    by_cases hk : k = id
    · simp [docSet, docGet, hk]
    · simp only [docGet, hk, if_false] at h
      simp [docSet, docGet, hk, ih h]

/-- Replacing a document leaves the others. -/
theorem docGet_docSet_other (remote : Remote) (id id' : String) (w : Record) (hne : id' ≠ id) :
    docGet (docSet remote id w) id' = docGet remote id' := by
  induction remote with
  | nil => simp [docSet]
  | cons e rest ih =>
    obtain ⟨k, v⟩ := e
    by_cases hk : k = id
    · subst hk
      have hk' : ¬ k = id' := fun h => hne h.symm
      simp [docSet, docGet, hk']
    · by_cases hk' : k = id'
      · subst hk'
        simp [docSet, docGet, hk]
      · simp [docSet, docGet, hk, hk', ih]

/-- Reading after a document was added at the end. -/
theorem docGet_append (remote : Remote) (id id' : String) (w : Record) :
    docGet (remote ++ [(id, w)]) id' =
      match docGet remote id' with
      | some doc => some doc
      | none => if id = id' then some w else none := by
  induction remote with
  | nil => simp [docGet]
  | cons e rest ih =>
    obtain ⟨k, v⟩ := e
    by_cases hk : k = id' <;> simp [docGet, hk, ih]

/-- After `delete(s.locks, key)` the key has no entry. -/
theorem locksGet_locksDelete_same (locks : List (String × Nat)) (key : String) :
    locksGet (locksDelete locks key) key = none := by
  induction locks with
  | nil => simp [locksDelete, locksGet]
  | cons e rest ih =>
    obtain ⟨k, h⟩ := e
    by_cases hk : k = key
    · simpa [locksDelete, hk] using ih
    · simpa [locksDelete, locksGet, hk] using ih

/-- Removing a key keeps the entries of the others. -/
theorem locksGet_locksDelete_other (locks : List (String × Nat)) (key key' : String)
    (hne : key' ≠ key) : locksGet (locksDelete locks key) key' = locksGet locks key' := by
  induction locks with
  | nil => simp [locksDelete, locksGet]
  | cons e rest ih =>
    obtain ⟨k, h⟩ := e
    by_cases hk : k = key
    · subst hk
      have hk' : ¬ k = key' := fun h => hne h.symm
      simpa [locksDelete, locksGet, hk'] using ih
    · by_cases hk' : k = key'
      · subst hk'
        simp [locksDelete, locksGet, hk]
      · simpa [locksDelete, locksGet, hk, hk'] using ih

/-! ## A single attempt -/

/-- What `attemptLock` gives when its transaction reads a locked document that is
not stale. -/
theorem attemptLock_of_fresh_lock (p : Proc) (net : Net) (ctx : Ctx) (key : String)
    (check write : Int) (remote : Remote) (doc : Record)
    (hlocal : hasLockLocal p.s key = false)
    (hread : net.read = none)
    (hdoc : docGet remote (firestoreSafeKey key) = some doc)
    (hlocked : doc.Locked = true)
    (hfresh : isStale p.s doc.LockedAt check = false) :
    attemptLock p net ctx key check write remote = (some Err.alreadyLocked, p, remote) := by
  simp [attemptLock, attemptLockTx, remoteGet, hlocal, hread, hdoc, hlocked, hfresh]

/-- C2: a manager with no local entry for the key whose transaction reads a
document that is locked and not stale gets `errAlreadyLocked` itself (not
wrapped); the collection is the one it found (no field of any document written)
and the process, its lock table included, is as before: no entry for the key. -/
theorem attemptLock_contended (p : Proc) (net : Net) (ctx : Ctx) (key : String)
    (check write : Int) (remote : Remote) (doc : Record)
    (hlocal : hasLockLocal p.s key = false)
    (hread : net.read = none)
    (hdoc : docGet remote (firestoreSafeKey key) = some doc)
    (hlocked : doc.Locked = true)
    (hfresh : isStale p.s doc.LockedAt check = false) :
    (attemptLock p net ctx key check write remote).1 = some Err.alreadyLocked ∧
    (attemptLock p net ctx key check write remote).2.2 = remote ∧
    docGet (attemptLock p net ctx key check write remote).2.2 (firestoreSafeKey key) = some doc ∧
    (attemptLock p net ctx key check write remote).2.1 = p ∧
    hasLockLocal (attemptLock p net ctx key check write remote).2.1.s key = false := by
  have h := attemptLock_of_fresh_lock p net ctx key check write remote doc hlocal hread hdoc
    hlocked hfresh
  simp [h, hdoc, hlocal]

/-- Witness of `attemptLock_contended`: a second manager meets the document another
one locked at instant 0, ten seconds later, with the default freshness of 5s. -/
theorem attemptLock_contended_witness :
    (attemptLock Proc.init Net.up [] "a/b" 10000000000 10000000000
      [("a\\b", { Raw := [], Locked := true, LockedAt := 0, CreatedAt := 0, UpdatedAt := 0 })]).1
      = some Err.alreadyLocked :=
  (attemptLock_contended Proc.init Net.up [] "a/b" 10000000000 10000000000
    [("a\\b", { Raw := [], Locked := true, LockedAt := 0, CreatedAt := 0, UpdatedAt := 0 })]
    { Raw := [], Locked := true, LockedAt := 0, CreatedAt := 0, UpdatedAt := 0 }
    (by decide) (by decide) (by decide) (by decide) (by decide)).1

/-- What `attemptLock` gives when its transaction commits: success, the entry of
`lockLocal` in the table and the renewal goroutine started on the child context. -/
theorem attemptLock_of_commit (p : Proc) (net : Net) (ctx : Ctx) (key : String)
    (check write : Int) (remote remote' : Remote)
    (hlocal : hasLockLocal p.s key = false)
    (htx : attemptLockTx p.s net (firestoreSafeKey key) check write remote = .ok remote') :
    attemptLock p net ctx key check write remote =
      (none,
       { s := { p.s with locks := (key, p.fresh) :: locksDelete p.s.locks key }
         fresh := p.fresh + 1
         fired := p.fired
         tasks := { ctx := Signal.lock p.fresh :: ctx, key := key } :: p.tasks },
       remote') := by
  simp [attemptLock, hlocal, htx, lockLocal]

/-- C3: for a manager with no local entry for the key and a network without
failures, `attemptLock` (a) creates an absent document with `locked = true` and
`lockedAt = createdAt = updatedAt = now`, (b) sets `locked = true`, `lockedAt = now`
on a document that is unlocked or stale and keeps its `raw`, `createdAt` and
`updatedAt`; in both cases it returns success, the local table then has an entry
for the key, and no other document changes. `now` is `UTCNow write`. -/
theorem attemptLock_acquires (p : Proc) (net : Net) (ctx : Ctx) (key : String)
    (check write : Int) (remote : Remote)
    (hlocal : hasLockLocal p.s key = false) (hnet : net = Net.up) :
    (docGet remote (firestoreSafeKey key) = none →
      (attemptLock p net ctx key check write remote).1 = none ∧
      docGet (attemptLock p net ctx key check write remote).2.2 (firestoreSafeKey key) =
        some { Raw := [], Locked := true, LockedAt := UTCNow write,
               CreatedAt := UTCNow write, UpdatedAt := UTCNow write } ∧
      hasLockLocal (attemptLock p net ctx key check write remote).2.1.s key = true) ∧
    (∀ doc : Record, docGet remote (firestoreSafeKey key) = some doc →
      (doc.Locked = false ∨ isStale p.s doc.LockedAt check = true) →
      (attemptLock p net ctx key check write remote).1 = none ∧
      docGet (attemptLock p net ctx key check write remote).2.2 (firestoreSafeKey key) =
        some { Raw := doc.Raw, Locked := true, LockedAt := UTCNow write,
               CreatedAt := doc.CreatedAt, UpdatedAt := doc.UpdatedAt } ∧
      hasLockLocal (attemptLock p net ctx key check write remote).2.1.s key = true) ∧
    (∀ id : String, id ≠ firestoreSafeKey key →
      docGet (attemptLock p net ctx key check write remote).2.2 id = docGet remote id) := by
  subst hnet
  refine ⟨?_, ?_, ?_⟩
  · intro habsent
    have htx : attemptLockTx p.s Net.up (firestoreSafeKey key) check write remote =
        .ok (remote ++ [(firestoreSafeKey key,
          { Raw := [], Locked := true, LockedAt := UTCNow write,
            CreatedAt := UTCNow write, UpdatedAt := UTCNow write })]) := by
      simp [attemptLockTx, remoteGet, remoteCreate, Net.up, habsent, IsDocNotFound]
    rw [attemptLock_of_commit p Net.up ctx key check write remote _ hlocal htx]
    simp [docGet_append, habsent, hasLockLocal, locksGet]
  · intro doc hdoc hfree
    have hcond : (doc.Locked && !isStale p.s doc.LockedAt check) = false := by
      rcases hfree with h | h <;> simp [h]
    have htx : attemptLockTx p.s Net.up (firestoreSafeKey key) check write remote =
        .ok (docSet remote (firestoreSafeKey key)
          { doc with Locked := true, LockedAt := UTCNow write }) := by
      simp [attemptLockTx, remoteGet, remoteUpdate, Net.up, hdoc, hcond]
    rw [attemptLock_of_commit p Net.up ctx key check write remote _ hlocal htx]
    simp [docGet_docSet_same remote _ doc _ hdoc, hasLockLocal, locksGet]
  · intro id hne
    cases hdoc : docGet remote (firestoreSafeKey key) with
    | none =>
      have htx : attemptLockTx p.s Net.up (firestoreSafeKey key) check write remote =
          .ok (remote ++ [(firestoreSafeKey key,
            { Raw := [], Locked := true, LockedAt := UTCNow write,
              CreatedAt := UTCNow write, UpdatedAt := UTCNow write })]) := by
        simp [attemptLockTx, remoteGet, remoteCreate, Net.up, hdoc, IsDocNotFound]
      rw [attemptLock_of_commit p Net.up ctx key check write remote _ hlocal htx]
      have hne' : ¬ firestoreSafeKey key = id := fun h => hne h.symm
      simp only [docGet_append, hne', if_false]
      cases docGet remote id <;> rfl
    | some doc =>
      cases hcond : (doc.Locked && !isStale p.s doc.LockedAt check) with
      | true =>
        have h : attemptLock p Net.up ctx key check write remote =
            (some Err.alreadyLocked, p, remote) := by
          simp [attemptLock, attemptLockTx, remoteGet, hlocal, Net.up, hdoc, hcond]
        rw [h]
      | false =>
        have htx : attemptLockTx p.s Net.up (firestoreSafeKey key) check write remote =
            .ok (docSet remote (firestoreSafeKey key)
              { doc with Locked := true, LockedAt := UTCNow write }) := by
          simp [attemptLockTx, remoteGet, remoteUpdate, Net.up, hdoc, hcond]
        rw [attemptLock_of_commit p Net.up ctx key check write remote _ hlocal htx]
        exact docGet_docSet_other remote _ id _ hne

/-- Witness of `attemptLock_acquires`: a fresh manager on an empty collection
creates the lock document of `a/b` at instant 7ms; and, on a collection whose
document of `a/b` carries a lock of instant 0 and a payload, it takes the lock
over at 11s (stale after 10s), keeping the payload. -/
theorem attemptLock_acquires_witness :
    ((attemptLock Proc.init Net.up [] "a/b" 7000000 7000000 []).1 = none ∧
      docGet (attemptLock Proc.init Net.up [] "a/b" 7000000 7000000 []).2.2
          (firestoreSafeKey "a/b") =
        some { Raw := [], Locked := true, LockedAt := UTCNow 7000000,
               CreatedAt := UTCNow 7000000, UpdatedAt := UTCNow 7000000 } ∧
      hasLockLocal (attemptLock Proc.init Net.up [] "a/b" 7000000 7000000 []).2.1.s "a/b" = true) ∧
    ((attemptLock Proc.init Net.up [] "a/b" 11000000000 11000000000
        [("a\\b", { Raw := [9], Locked := true, LockedAt := 0, CreatedAt := 0, UpdatedAt := 0 })]).1
        = none ∧
      docGet (attemptLock Proc.init Net.up [] "a/b" 11000000000 11000000000
          [("a\\b", { Raw := [9], Locked := true, LockedAt := 0, CreatedAt := 0, UpdatedAt := 0 })]).2.2
          (firestoreSafeKey "a/b") =
        some { Raw := [9], Locked := true, LockedAt := UTCNow 11000000000,
               CreatedAt := 0, UpdatedAt := 0 } ∧
      hasLockLocal (attemptLock Proc.init Net.up [] "a/b" 11000000000 11000000000
          [("a\\b", { Raw := [9], Locked := true, LockedAt := 0, CreatedAt := 0, UpdatedAt := 0 })]).2.1.s
          "a/b" = true) :=
  ⟨(attemptLock_acquires Proc.init Net.up [] "a/b" 7000000 7000000 [] (by decide) rfl).1
      (by decide),
   (attemptLock_acquires Proc.init Net.up [] "a/b" 11000000000 11000000000
      [("a\\b", { Raw := [9], Locked := true, LockedAt := 0, CreatedAt := 0, UpdatedAt := 0 })]
      (by decide) rfl).2.1
      { Raw := [9], Locked := true, LockedAt := 0, CreatedAt := 0, UpdatedAt := 0 }
      (by decide) (Or.inr (by decide))⟩

/-- C9: a manager that has an entry for the key in its local table gets success
from `attemptLock` whatever the collection and the network are; the collection,
the table with the key's cancel function, and the whole process are unchanged. -/
theorem attemptLock_reentrant (p : Proc) (net : Net) (ctx : Ctx) (key : String)
    (check write : Int) (remote : Remote) (hlocal : hasLockLocal p.s key = true) :
    (attemptLock p net ctx key check write remote).1 = none ∧
    (attemptLock p net ctx key check write remote).2.2 = remote ∧
    (attemptLock p net ctx key check write remote).2.1 = p ∧
    (attemptLock p net ctx key check write remote).2.1.s.locks = p.s.locks ∧
    locksGet (attemptLock p net ctx key check write remote).2.1.s.locks key =
      locksGet p.s.locks key := by
  have h : attemptLock p net ctx key check write remote = (none, p, remote) := by
    simp [attemptLock, hlocal]
  simp [h]

/-- Witness of `attemptLock_reentrant`: the manager holds `a/b` locally while the
network is down and the collection holds no document at all. -/
theorem attemptLock_reentrant_witness :
    (attemptLock { Proc.init with s := { New with locks := [("a/b", 0)] }, fresh := 1 }
      { read := some 14, write := some 14 } [] "a/b" 0 0 []).1 = none :=
  (attemptLock_reentrant { Proc.init with s := { New with locks := [("a/b", 0)] }, fresh := 1 }
    { read := some 14, write := some 14 } [] "a/b" 0 0 [] (by decide)).1

/-! ## Release -/

/-- `Unlock` on a key without a local entry: the not-found error, nothing else. -/
theorem Unlock_of_absent (p : Proc) (net : Net) (key : String) (wall : Int) (remote : Remote)
    (hlocal : hasLockLocal p.s key = false) :
    Unlock p net key wall remote =
      (some (.errorf ("lock " ++ key ++ " was not found")), p, remote) := by
  have h : locksGet p.s.locks key = none := by
    simpa [hasLockLocal] using hlocal
  simp [Unlock, unlockLocal, h]

/-- After `Unlock`, whatever it returned, the table has no entry for the key. -/
theorem hasLockLocal_Unlock (p : Proc) (net : Net) (key : String) (wall : Int) (remote : Remote) :
    hasLockLocal (Unlock p net key wall remote).2.1.s key = false := by
  cases h : locksGet p.s.locks key with
  | none => simp [Unlock, unlockLocal, h, hasLockLocal]
  | some c =>
    cases hu : remoteUpdate net remote (firestoreSafeKey key)
        (fun doc => { doc with Locked := false, LockedAt := UTCNow wall }) <;>
      simp [Unlock, unlockLocal, h, hu, hasLockLocal, locksGet_locksDelete_same]

/-- C6: `Unlock` of a key that has no entry in the local table returns the error
`lock <key> was not found`, leaves the collection as it is (no remote write) and
the process with its table as it is; a second `Unlock` directly after an `Unlock`
that succeeded fails with this error. -/
theorem Unlock_not_held (p : Proc) (net : Net) (key : String) (wall : Int) (remote : Remote) :
    (hasLockLocal p.s key = false →
      (Unlock p net key wall remote).1 = some (.errorf ("lock " ++ key ++ " was not found")) ∧
      (Unlock p net key wall remote).2.2 = remote ∧
      (Unlock p net key wall remote).2.1 = p ∧
      (Unlock p net key wall remote).2.1.s.locks = p.s.locks) ∧
    (∀ (net₂ : Net) (wall₂ : Int), (Unlock p net key wall remote).1 = none →
      (Unlock (Unlock p net key wall remote).2.1 net₂ key wall₂
          (Unlock p net key wall remote).2.2).1 =
        some (.errorf ("lock " ++ key ++ " was not found")) ∧
      (Unlock (Unlock p net key wall remote).2.1 net₂ key wall₂
          (Unlock p net key wall remote).2.2).2.2 = (Unlock p net key wall remote).2.2 ∧
      (Unlock (Unlock p net key wall remote).2.1 net₂ key wall₂
          (Unlock p net key wall remote).2.2).2.1 = (Unlock p net key wall remote).2.1) := by
  refine ⟨?_, ?_⟩
  · intro hlocal
    simp [Unlock_of_absent p net key wall remote hlocal]
  · intro net₂ wall₂ _
    simp [Unlock_of_absent _ net₂ key wall₂ _ (hasLockLocal_Unlock p net key wall remote)]

/-- C7: `Unlock` of a key that has an entry in the local table removes the entry
and fires its cancel function whether or not the remote update succeeds, and
keeps the entries of other keys. When the update succeeds (the network lets the
write through and the document exists) the document has `locked = false`,
`lockedAt = now` and its other fields as before, and `Unlock` returns success;
when it fails `Unlock` returns the wrapped error and the collection is unchanged. -/
theorem Unlock_held (p : Proc) (net : Net) (key : String) (wall : Int) (remote : Remote)
    (h : Nat) (hentry : locksGet p.s.locks key = some h) :
    hasLockLocal (Unlock p net key wall remote).2.1.s key = false ∧
    Signal.lock h ∈ (Unlock p net key wall remote).2.1.fired ∧
    (∀ key' : String, key' ≠ key →
      locksGet (Unlock p net key wall remote).2.1.s.locks key' = locksGet p.s.locks key') ∧
    (∀ doc : Record, net.write = none → docGet remote (firestoreSafeKey key) = some doc →
      (Unlock p net key wall remote).1 = none ∧
      docGet (Unlock p net key wall remote).2.2 (firestoreSafeKey key) =
        some { Raw := doc.Raw, Locked := false, LockedAt := UTCNow wall,
               CreatedAt := doc.CreatedAt, UpdatedAt := doc.UpdatedAt }) ∧
    (∀ err : Err, remoteUpdate net remote (firestoreSafeKey key)
        (fun doc => { doc with Locked := false, LockedAt := UTCNow wall }) = .error err →
      (Unlock p net key wall remote).1 = some (.wrapf ("unable to unlock " ++ key) err) ∧
      (Unlock p net key wall remote).2.2 = remote) ∧
    ((net.write ≠ none ∨ docGet remote (firestoreSafeKey key) = none) →
      (Unlock p net key wall remote).1 ≠ none ∧
      (Unlock p net key wall remote).2.2 = remote) := by
  refine ⟨hasLockLocal_Unlock p net key wall remote, ?_, ?_, ?_, ?_, ?_⟩
  · cases hu : remoteUpdate net remote (firestoreSafeKey key)
        (fun doc => { doc with Locked := false, LockedAt := UTCNow wall }) <;>
      simp [Unlock, unlockLocal, hentry, hu]
  · intro key' hne
    cases hu : remoteUpdate net remote (firestoreSafeKey key)
        (fun doc => { doc with Locked := false, LockedAt := UTCNow wall }) <;>
      simp [Unlock, unlockLocal, hentry, hu, locksGet_locksDelete_other _ key key' hne]
  · intro doc hw hdoc
    simp [Unlock, unlockLocal, hentry, remoteUpdate, hw, hdoc,
      docGet_docSet_same remote _ doc _ hdoc]
  · intro err hu
    simp [Unlock, unlockLocal, hentry, hu]
  · intro hfail
    rcases hfail with hw | hdoc
    · cases hc : net.write with
      | none => exact absurd hc hw
      | some code => simp [Unlock, unlockLocal, hentry, remoteUpdate, hc]
    · cases hc : net.write <;> simp [Unlock, unlockLocal, hentry, remoteUpdate, hc, hdoc]

/-- Witness of `Unlock_not_held`: a fresh manager unlocks `a/b`, which it never locked. -/
theorem Unlock_not_held_witness :
    (Unlock Proc.init Net.up "a/b" 0 []).1 = some (.errorf "lock a/b was not found") ∧
    (Unlock Proc.init Net.up "a/b" 0 []).2.2 = [] :=
  have h := (Unlock_not_held Proc.init Net.up "a/b" 0 []).1 (by decide)
  ⟨h.1, h.2.1⟩

/-- Witness of `Unlock_held`: the manager holds `a/b` with cancel function 0 and the
network refuses the write; the entry is gone and the cancel function has fired. -/
theorem Unlock_held_witness :
    hasLockLocal (Unlock { Proc.init with s := { New with locks := [("a/b", 0)] }, fresh := 1 }
      { read := none, write := some 14 } "a/b" 0 []).2.1.s "a/b" = false ∧
    Signal.lock 0 ∈ (Unlock { Proc.init with s := { New with locks := [("a/b", 0)] }, fresh := 1 }
      { read := none, write := some 14 } "a/b" 0 []).2.1.fired :=
  have h := Unlock_held { Proc.init with s := { New with locks := [("a/b", 0)] }, fresh := 1 }
    { read := none, write := some 14 } "a/b" 0 [] 0 (by decide)
  ⟨h.1, h.2.1⟩

/-! ## The blocking loop -/

/-- An attempt that returns an error has changed neither the process nor the
collection. -/
theorem attemptLock_of_error (p : Proc) (net : Net) (ctx : Ctx) (key : String)
    (check write : Int) (remote : Remote) (err : Err)
    (h : (attemptLock p net ctx key check write remote).1 = some err) :
    (attemptLock p net ctx key check write remote).2 = (p, remote) := by
  unfold attemptLock at h ⊢
  by_cases hl : hasLockLocal p.s key = true
  · simp [hl]
  · simp only [hl] at h ⊢
    cases htx : attemptLockTx p.s net (firestoreSafeKey key) check write remote with
    | error e =>
      by_cases he : e = Err.alreadyLocked <;> simp [he]
    | ok remote' => simp [htx] at h

/-- `Lock` never hands the sentinel to its caller. -/
theorem Lock_ne_alreadyLocked (ctx : Ctx) (key : String) (rounds : List Round) :
    ∀ (p : Proc) (out : Option Err × Proc × Remote),
      Lock p ctx key rounds = some out → out.1 ≠ some Err.alreadyLocked := by
  induction rounds with
  | nil => intro p out h; simp [Lock] at h
  | cons r rest ih =>
    intro p out h
    unfold Lock at h
    rcases hat : attemptLock p r.net ctx key r.check r.write r.remote with ⟨res, p', remote'⟩
    rw [hat] at h
    cases res with
    | none =>
      simp only [Option.some.injEq] at h
      subst h
      simp
    | some err =>
      by_cases he : err = Err.alreadyLocked
      · subst he
        cases hab : r.abort with
        | none =>
          simp only [hab, sleepOrAbort, ne_eq, not_true_eq_false, if_false, Option.isSome_none] at h
          exact ih p' out (by simpa using h)
        | some e =>
          simp [hab, sleepOrAbort, ctxErr] at h
          subst h
          simp
      · simp only [ne_eq, he, not_false_eq_true, if_true, Option.some.injEq] at h
        subst h
        simpa using he

/-- Passes that meet contention and whose backoff sleep ends by the timer are
passed over: the loop goes on with the process unchanged. -/
theorem Lock_skip_contended (p : Proc) (ctx : Ctx) (key : String) (pre rest : List Round)
    (hpre : ∀ q ∈ pre,
      (attemptLock p q.net ctx key q.check q.write q.remote).1 = some Err.alreadyLocked ∧
      q.abort = none) :
    Lock p ctx key (pre ++ rest) = Lock p ctx key rest := by
  induction pre with
  | nil => rfl
  | cons q qs ih =>
    have hq := hpre q (List.mem_cons_self q qs)
    have hstate := attemptLock_of_error p q.net ctx key q.check q.write q.remote _ hq.1
    rcases hat : attemptLock p q.net ctx key q.check q.write q.remote with ⟨res, p', remote'⟩
    rw [hat] at hq hstate
    simp only [Prod.mk.injEq] at hstate
    obtain ⟨hp, _⟩ := hstate
    have hres : res = some Err.alreadyLocked := hq.1
    subst hp hres
    have hrest := ih (fun q' hq' => hpre q' (List.mem_cons_of_mem q hq'))
    simp only [List.cons_append]
    rw [Lock, hat]
    simp [sleepOrAbort, hq.2, hrest]

/-- C5: `Lock` never returns `errAlreadyLocked`. A pass whose attempt succeeds makes
it return success; a pass whose attempt fails with another error makes it return
that error, whatever passes would follow (no further attempt); a pass that meets
contention makes it return the context's error when the context ends the sleep,
and go on with the next pass when the timer does; after any number of such
retried passes the first pass that is not retried decides. -/
theorem Lock_absorbs_contended (p : Proc) (ctx : Ctx) (key : String) (r : Round)
    (rounds : List Round) :
    (∀ (rs : List Round) (out : Option Err × Proc × Remote),
      Lock p ctx key rs = some out → out.1 ≠ some Err.alreadyLocked) ∧
    ((attemptLock p r.net ctx key r.check r.write r.remote).1 = none →
      Lock p ctx key (r :: rounds) =
        some (attemptLock p r.net ctx key r.check r.write r.remote)) ∧
    (∀ err : Err, (attemptLock p r.net ctx key r.check r.write r.remote).1 = some err →
      err ≠ Err.alreadyLocked →
      Lock p ctx key (r :: rounds) = some (some err, p, r.remote)) ∧
    ((attemptLock p r.net ctx key r.check r.write r.remote).1 = some Err.alreadyLocked →
      (∀ e : CtxErr, r.abort = some e →
        Lock p ctx key (r :: rounds) = some (some (.ctx e), p, r.remote)) ∧
      (r.abort = none → Lock p ctx key (r :: rounds) = Lock p ctx key rounds)) ∧
    (∀ pre : List Round,
      (∀ q ∈ pre,
        (attemptLock p q.net ctx key q.check q.write q.remote).1 = some Err.alreadyLocked ∧
        q.abort = none) →
      Lock p ctx key (pre ++ r :: rounds) = Lock p ctx key (r :: rounds)) := by
  refine ⟨fun rs out h => Lock_ne_alreadyLocked ctx key rs p out h, ?_, ?_, ?_, ?_⟩
  · intro hok
    rcases hat : attemptLock p r.net ctx key r.check r.write r.remote with ⟨res, p', remote'⟩
    rw [hat] at hok
    simp only at hok
    subst hok
    simp [Lock, hat]
  · intro err herr hne
    have hstate := attemptLock_of_error p r.net ctx key r.check r.write r.remote err herr
    rcases hat : attemptLock p r.net ctx key r.check r.write r.remote with ⟨res, p', remote'⟩
    rw [hat] at herr hstate
    simp only [Prod.mk.injEq] at hstate
    simp only at herr
    obtain ⟨hp, hr⟩ := hstate
    subst hp hr herr
    simp [Lock, hat, hne]
  · intro hcont
    have hstate := attemptLock_of_error p r.net ctx key r.check r.write r.remote _ hcont
    rcases hat : attemptLock p r.net ctx key r.check r.write r.remote with ⟨res, p', remote'⟩
    rw [hat] at hcont hstate
    simp only [Prod.mk.injEq] at hstate
    simp only at hcont
    obtain ⟨hp, hr⟩ := hstate
    subst hp hr hcont
    refine ⟨?_, ?_⟩
    · intro e hab
      simp [Lock, hat, sleepOrAbort, ctxErr, hab]
    · intro hab
      rw [Lock, hat]
      simp [sleepOrAbort, hab]
  · intro pre hpre
    exact Lock_skip_contended p ctx key pre (r :: rounds) hpre

/-- The package test `Test_attemptLock`, replayed: a manager and a replica on an
empty collection. `Lock` succeeds; the replica's attempt is contended and leaves
it without entry; `Lock` again succeeds (reentrant); `Unlock` succeeds; a second
`Unlock` is the not-found error; `attemptLock` and `Unlock` succeed again. -/
theorem Test_attemptLock_replay :
    ∃ (p₁ p₂ p₃ p₄ : Proc) (r₁ r₂ r₃ r₄ : Remote),
      Lock Proc.init [] "c/test/a.crt"
        [{ remote := [], net := Net.up, check := 1000000, write := 1000000, abort := none }]
        = some (none, p₁, r₁) ∧
      hasLockLocal p₁.s "c/test/a.crt" = true ∧
      attemptLock Proc.init Net.up [] "c/test/a.crt" 2000000 2000000 r₁
        = (some Err.alreadyLocked, Proc.init, r₁) ∧
      Lock p₁ [] "c/test/a.crt"
        [{ remote := r₁, net := Net.up, check := 3000000, write := 3000000, abort := none }]
        = some (none, p₁, r₁) ∧
      Unlock p₁ Net.up "c/test/a.crt" 4000000 r₁ = (none, p₂, r₂) ∧
      hasLockLocal p₂.s "c/test/a.crt" = false ∧
      Unlock p₂ Net.up "c/test/a.crt" 5000000 r₂
        = (some (.errorf "lock c/test/a.crt was not found"), p₂, r₂) ∧
      attemptLock p₂ Net.up [] "c/test/a.crt" 6000000 6000000 r₂ = (none, p₃, r₃) ∧
      hasLockLocal p₃.s "c/test/a.crt" = true ∧
      Unlock p₃ Net.up "c/test/a.crt" 7000000 r₃ = (none, p₄, r₄) ∧
      hasLockLocal p₄.s "c/test/a.crt" = false ∧
      docGet r₄ (firestoreSafeKey "c/test/a.crt") =
        some { Raw := [], Locked := false, LockedAt := 7000000,
               CreatedAt := 1000000, UpdatedAt := 1000000 } := by
  refine ⟨_, _, _, _, _, _, _, _, rfl, ?_, ?_, ?_, rfl, ?_, ?_, rfl, ?_, rfl, ?_, ?_⟩ <;> decide

/-- The loop of `Lock` on three passes: contended, contended, then the lock of
instant 0 has gone stale (at 11s, freshness 5s) and is taken over; and on a pass
whose sleep is ended by the caller's deadline. -/
theorem Lock_replay :
    (Lock Proc.init [] "a/b"
      [{ remote := [("a\\b", { Raw := [], Locked := true, LockedAt := 0, CreatedAt := 0, UpdatedAt := 0 })],
         net := Net.up, check := 1000000000, write := 1000000000, abort := none },
       { remote := [("a\\b", { Raw := [], Locked := true, LockedAt := 0, CreatedAt := 0, UpdatedAt := 0 })],
         net := Net.up, check := 6000000000, write := 6000000000, abort := none },
       { remote := [("a\\b", { Raw := [], Locked := true, LockedAt := 0, CreatedAt := 0, UpdatedAt := 0 })],
         net := Net.up, check := 11000000000, write := 11000000000, abort := none }]).map
      (fun out => (out.1, docGet out.2.2 "a\\b"))
      = some (none, some { Raw := [], Locked := true, LockedAt := 11000000000,
                           CreatedAt := 0, UpdatedAt := 0 }) ∧
    (Lock Proc.init [Signal.caller 0] "a/b"
      [{ remote := [("a\\b", { Raw := [], Locked := true, LockedAt := 0, CreatedAt := 0, UpdatedAt := 0 })],
         net := Net.up, check := 1000000000, write := 1000000000,
         abort := some CtxErr.DeadlineExceeded }]).map (fun out => out.1)
      = some (some (.ctx CtxErr.DeadlineExceeded)) := by
  decide

/-! ## Two managers -/

/-- A transaction of `attemptLock` that commits leaves the document locked, with
`lockedAt` the instant it wrote. -/
theorem attemptLockTx_ok_locked (s : Storage) (net : Net) (id : String) (check write : Int)
    (remote remote' : Remote)
    (h : attemptLockTx s net id check write remote = .ok remote') :
    ∃ doc : Record, docGet remote' id = some doc ∧ doc.Locked = true ∧
      doc.LockedAt = UTCNow write := by
  unfold attemptLockTx at h
  cases hget : remoteGet net remote id with
  | error err =>
    rw [hget] at h
    by_cases hnf : IsDocNotFound err = true
    · simp only [hnf, if_true] at h
      unfold remoteCreate at h
      cases hw : net.write with
      | some code => simp [hw] at h
      | none =>
        cases hdoc : docGet remote id with
        | some doc => simp [hw, hdoc] at h
        | none =>
          simp only [hw, hdoc, Except.ok.injEq] at h
          subst h
          exact ⟨{ Raw := [], Locked := true, LockedAt := UTCNow write,
                   CreatedAt := UTCNow write, UpdatedAt := UTCNow write },
            by simp [docGet_append, hdoc], rfl, rfl⟩
    · simp [hnf] at h
  | ok cert =>
    rw [hget] at h
    by_cases hc : (cert.Locked && !isStale s cert.LockedAt check) = true
    · simp [hc] at h
    · simp only [hc] at h
      unfold remoteUpdate at h
      cases hw : net.write with
      | some code => simp [hw] at h
      | none =>
        cases hdoc : docGet remote id with
        | none => simp [hw, hdoc] at h
        | some doc =>
          simp only [hw, hdoc, Bool.false_eq_true, if_false, Except.ok.injEq] at h
          subst h
          exact ⟨_, docGet_docSet_same remote id doc _ hdoc, rfl, rfl⟩

/-- A successful attempt by a manager without local entry leaves the document
locked, with `lockedAt` the instant the attempt wrote. -/
theorem attemptLock_ok_locked (p : Proc) (net : Net) (ctx : Ctx) (key : String)
    (check write : Int) (remote : Remote)
    (hlocal : hasLockLocal p.s key = false)
    (hwin : (attemptLock p net ctx key check write remote).1 = none) :
    ∃ doc : Record,
      docGet (attemptLock p net ctx key check write remote).2.2 (firestoreSafeKey key) = some doc ∧
      doc.Locked = true ∧ doc.LockedAt = UTCNow write := by
  cases htx : attemptLockTx p.s net (firestoreSafeKey key) check write remote with
  | error err =>
    exfalso
    by_cases he : err = Err.alreadyLocked <;> simp [attemptLock, hlocal, htx, he] at hwin
  | ok remote' =>
    rw [attemptLock_of_commit p net ctx key check write remote remote' hlocal htx]
    exact attemptLockTx_ok_locked p.s net _ check write remote remote' htx

/-- The renewal goroutine keeps a locked document locked and only moves its
`lockedAt` to instants it reads from the clock. -/
theorem keepLockFresh_keeps_locked (t : Task) (t₀ : Int) (evs : List Tick)
    (hevs : ∀ ev ∈ evs, t₀ ≤ UTCNow ev.wall) :
    ∀ remote : Remote,
      (∃ doc : Record, docGet remote (firestoreSafeKey t.key) = some doc ∧ doc.Locked = true ∧
        t₀ ≤ doc.LockedAt) →
      ∃ doc : Record, docGet (keepLockFresh t evs remote).2 (firestoreSafeKey t.key) = some doc ∧
        doc.Locked = true ∧ t₀ ≤ doc.LockedAt := by
  induction evs with
  | nil => intro remote h; simpa [keepLockFresh] using h
  | cons ev rest ih =>
    intro remote h
    have hrest := ih (fun e he => hevs e (List.mem_cons_of_mem ev he))
    have hev := hevs ev (List.mem_cons_self ev rest)
    have hpass : ∃ doc : Record,
        docGet (keepLockFreshPass t ev remote).2 (firestoreSafeKey t.key) = some doc ∧
        doc.Locked = true ∧ t₀ ≤ doc.LockedAt := by
      obtain ⟨doc, hdoc, hl, ht⟩ := h
      unfold keepLockFreshPass
      cases hw : ev.wake with
      | done =>
        by_cases hd : ctxDone ev.fired t.ctx = true <;> simp [hd] <;> exact ⟨doc, hdoc, hl, ht⟩
      | timer =>
        simp only
        unfold updateFreshness
        by_cases hd : ctxDone ev.fired t.ctx = true
        · simp only [hd, if_true]
          exact ⟨doc, hdoc, hl, ht⟩
        · simp only [hd]
          unfold remoteUpdate
          cases hn : ev.net.write with
          | some code => simp only [Bool.false_eq_true, if_false]; exact ⟨doc, hdoc, hl, ht⟩
          | none =>
            simp only [hdoc, Bool.false_eq_true, if_false]
            exact ⟨_, docGet_docSet_same remote _ doc _ hdoc, hl, hev⟩
    unfold keepLockFresh
    rcases hp : keepLockFreshPass t ev remote with ⟨go, remote'⟩
    rw [hp] at hpass
    cases go with
    | false => simpa using hpass
    | true => simpa using hrest remote' hpass

/-- C1 (as the claim states it, refuted): with `FreshnessSeconds = 4611686019` on
both managers, manager A creates the lock document at instant 0 and manager B,
attempting at the same instant (inside `[t, t + 2 * F]` seconds), succeeds too:
the wrapped stale duration is negative, so B judges A's lock stale. -/
theorem attemptLock_both_succeed_counterexample :
    (attemptLock { Proc.init with s := { New with FreshnessSeconds := 4611686019 } }
      Net.up [] "a/b" 0 0 []).1 = none ∧
    UTCNow 0 ≤ UTCNow 0 ∧ UTCNow 0 ≤ UTCNow 0 + 2 * 4611686019 * Second ∧
    (attemptLock { Proc.init with s := { New with FreshnessSeconds := 4611686019 } }
      Net.up [] "a/b" 0 0
      (attemptLock { Proc.init with s := { New with FreshnessSeconds := 4611686019 } }
        Net.up [] "a/b" 0 0 []).2.2).1 = none := by
  decide

/-- C1 (amended): for every freshness interval `F ≤ 4611686018` seconds (twice `F`
seconds fits a 64-bit nanosecond duration), every key and every collection: when
manager A, without local entry, succeeds in `attemptLock` writing instant `t`, then
manager B, without local entry, whose transaction reads the document at an
instant `t'` with `t ≤ t' ≤ t + 2 * F` seconds, gets `errAlreadyLocked` and changes
nothing, so exactly one of the two succeeds. Between the two attempts A's renewal
goroutine may have run any wake-ups `beats` (clock not before `t`); there is no
`Unlock`. -/
theorem attemptLock_mutual_exclusion (pA pB : Proc) (netA netB : Net) (ctxA ctxB : Ctx)
    (key : String) (checkA writeA checkB writeB : Int) (remote : Remote) (beats : List Tick)
    (hA : hasLockLocal pA.s key = false) (hB : hasLockLocal pB.s key = false)
    (hF : pB.s.FreshnessSeconds ≤ 4611686018)
    (hwin : (attemptLock pA netA ctxA key checkA writeA remote).1 = none)
    (hbeats : ∀ ev ∈ beats, UTCNow writeA ≤ UTCNow ev.wall)
    (hread : netB.read = none)
    (hlo : UTCNow writeA ≤ UTCNow checkB)
    (hhi : UTCNow checkB ≤ UTCNow writeA + 2 * pB.s.FreshnessSeconds * Second) :
    (attemptLock pA netA ctxA key checkA writeA remote).1 = none ∧
    attemptLock pB netB ctxB key checkB writeB
        (keepLockFresh { ctx := Signal.lock pA.fresh :: ctxA, key := key } beats
          (attemptLock pA netA ctxA key checkA writeA remote).2.2).2 =
      (some Err.alreadyLocked, pB,
        (keepLockFresh { ctx := Signal.lock pA.fresh :: ctxA, key := key } beats
          (attemptLock pA netA ctxA key checkA writeA remote).2.2).2) := by
  refine ⟨hwin, ?_⟩
  obtain ⟨doc₀, hdoc₀, hl₀, ht₀⟩ :=
    attemptLock_ok_locked pA netA ctxA key checkA writeA remote hA hwin
  obtain ⟨doc, hdoc, hl, ht⟩ :=
    keepLockFresh_keeps_locked { ctx := Signal.lock pA.fresh :: ctxA, key := key }
      (UTCNow writeA) beats hbeats _ ⟨doc₀, hdoc₀, hl₀, le_of_eq ht₀.symm⟩
  have hFlo : 0 ≤ pB.s.FreshnessSeconds := by
    unfold Second at hhi
    omega
  have hd := staleAfter_of_range pB.s (by omega) hF
  have hfresh : isStale pB.s doc.LockedAt checkB = false := by
    simp only [isStale, hd, decide_eq_false_iff_not]
    omega
  exact attemptLock_of_fresh_lock pB netB ctxB key checkB writeB _ doc hB hread hdoc hl hfresh

/-- Witness of `attemptLock_mutual_exclusion`: manager A creates the lock document
of `a/b` at instant 0, refreshes it once at 5s, and manager B attempts at 10s with
the default freshness of 5s. -/
theorem attemptLock_mutual_exclusion_witness :
    (attemptLock
      (Proc.init) Net.up [] "a/b" 10000000000 10000000000
      (keepLockFresh { ctx := Signal.lock Proc.init.fresh :: [], key := "a/b" }
        [{ wake := Wake.timer, net := Net.up, wall := 5000000000, fired := [] }]
        (attemptLock Proc.init Net.up [] "a/b" 0 0 []).2.2).2).1 = some Err.alreadyLocked :=
  congrArg Prod.fst
    (attemptLock_mutual_exclusion Proc.init Proc.init Net.up Net.up [] [] "a/b" 0 0
      10000000000 10000000000 []
      [{ wake := Wake.timer, net := Net.up, wall := 5000000000, fired := [] }]
      (by decide) (by decide) (by decide) (by decide) (by decide) (by decide) (by decide)
      (by decide)).2

/-! ## Lifetime of the renewal goroutine -/

/-- While its context is not done and the network lets the heartbeat through, the
renewal goroutine stays in its loop and the document stays in the collection. -/
theorem keepLockFresh_alive (t : Task) (evs : List Tick)
    (hevs : ∀ ev ∈ evs, ctxDone ev.fired t.ctx = false ∧ ev.net.write = none) :
    ∀ remote : Remote, docGet remote (firestoreSafeKey t.key) ≠ none →
      (keepLockFresh t evs remote).1 = true := by
  induction evs with
  | nil => intro remote _; rfl
  | cons ev rest ih =>
    intro remote hdoc
    obtain ⟨hnd, hw⟩ := hevs ev (List.mem_cons_self ev rest)
    have hrest := ih (fun e he => hevs e (List.mem_cons_of_mem ev he))
    cases hd : docGet remote (firestoreSafeKey t.key) with
    | none => exact absurd hd hdoc
    | some doc =>
      cases hwk : ev.wake with
      | done =>
        have hp : keepLockFreshPass t ev remote = (true, remote) := by
          simp [keepLockFreshPass, hwk, hnd]
        rw [keepLockFresh, hp]
        exact hrest remote hdoc
      | timer =>
        have hp : keepLockFreshPass t ev remote =
            (true, docSet remote (firestoreSafeKey t.key)
              { doc with LockedAt := UTCNow ev.wall }) := by
          simp [keepLockFreshPass, hwk, updateFreshness, hnd, remoteUpdate, hw, hd]
        rw [keepLockFresh, hp]
        refine hrest _ ?_
        rw [docGet_docSet_same remote _ doc _ hd]
        simp

/-- A wake-up at which the context of the renewal goroutine is done ends it, and
writes nothing. -/
theorem keepLockFresh_of_done (t : Task) (ev : Tick) (evs : List Tick) (remote : Remote)
    (hdone : ctxDone ev.fired t.ctx = true) :
    keepLockFresh t (ev :: evs) remote = (false, remote) := by
  have hp : keepLockFreshPass t ev remote = (false, remote) := by
    cases hwk : ev.wake <;> simp [keepLockFreshPass, hwk, updateFreshness, hdone]
  rw [keepLockFresh, hp]

/-- C8 (the code at the failing input): `Lock` with the caller context `ctx`
(signal 0) acquires `a/b` on an empty collection and returns success; the caller
then cancels `ctx`. `Unlock` was never called: the table still has the entry and
its cancel function has not fired. Yet the next wake-up of the renewal goroutine,
by the timer or by `ctx.Done()`, ends it without refreshing `lockedAt`. The lock
is not relinquished: the manager still answers an attempt on `a/b` from its table,
while at 11s (freshness 5s) another manager finds the lock stale and takes it. -/
theorem keepLockFresh_stopped_by_caller :
    (Lock Proc.init [Signal.caller 0] "a/b"
      [{ remote := [], net := Net.up, check := 0, write := 0, abort := none }]).map (fun out => out.1)
      = some none ∧
    (attemptLock Proc.init Net.up [Signal.caller 0] "a/b" 0 0 []).2.1.tasks =
      [{ ctx := [Signal.lock 0, Signal.caller 0], key := "a/b" }] ∧
    hasLockLocal (attemptLock Proc.init Net.up [Signal.caller 0] "a/b" 0 0 []).2.1.s "a/b" = true ∧
    Signal.lock 0 ∉ [Signal.caller 0] ∧
    keepLockFresh { ctx := [Signal.lock 0, Signal.caller 0], key := "a/b" }
      [{ wake := Wake.timer, net := Net.up, wall := 5000000000, fired := [Signal.caller 0] }]
      (attemptLock Proc.init Net.up [Signal.caller 0] "a/b" 0 0 []).2.2 =
      (false, (attemptLock Proc.init Net.up [Signal.caller 0] "a/b" 0 0 []).2.2) ∧
    keepLockFresh { ctx := [Signal.lock 0, Signal.caller 0], key := "a/b" }
      [{ wake := Wake.done, net := Net.up, wall := 5000000000, fired := [Signal.caller 0] }]
      (attemptLock Proc.init Net.up [Signal.caller 0] "a/b" 0 0 []).2.2 =
      (false, (attemptLock Proc.init Net.up [Signal.caller 0] "a/b" 0 0 []).2.2) ∧
    attemptLock (attemptLock Proc.init Net.up [Signal.caller 0] "a/b" 0 0 []).2.1 Net.up []
      "a/b" 11000000000 11000000000
      (attemptLock Proc.init Net.up [Signal.caller 0] "a/b" 0 0 []).2.2 =
      (none, (attemptLock Proc.init Net.up [Signal.caller 0] "a/b" 0 0 []).2.1,
        (attemptLock Proc.init Net.up [Signal.caller 0] "a/b" 0 0 []).2.2) ∧
    (attemptLock Proc.init Net.up [] "a/b" 11000000000 11000000000
      (attemptLock Proc.init Net.up [Signal.caller 0] "a/b" 0 0 []).2.2).1 = none := by
  decide

/-- What the code does with the renewal goroutine (a description of the code as it
is, not of what it is meant to do): a successful `attemptLock` with context `ctx`
starts the goroutine on a child of `ctx` whose cancel function is the key's table
entry. The goroutine stays in its loop through every wake-up at which neither that
cancel function has fired nor `ctx` is done, as long as the heartbeat write goes
through; a timer wake-up then refreshes `lockedAt`. It is ended, with nothing
written, by the first wake-up after the cancel function fired or after `ctx` was
cancelled or expired. -/
theorem keepLockFresh_lifetime (p : Proc) (net : Net) (ctx : Ctx) (key : String)
    (check write : Int) (remote : Remote)
    (hlocal : hasLockLocal p.s key = false)
    (hwin : (attemptLock p net ctx key check write remote).1 = none) :
    (attemptLock p net ctx key check write remote).2.1.tasks =
      { ctx := Signal.lock p.fresh :: ctx, key := key } :: p.tasks ∧
    locksGet (attemptLock p net ctx key check write remote).2.1.s.locks key = some p.fresh ∧
    (∀ (evs : List Tick) (remote₁ : Remote),
      docGet remote₁ (firestoreSafeKey key) ≠ none →
      (∀ ev ∈ evs, Signal.lock p.fresh ∉ ev.fired ∧ ctxDone ev.fired ctx = false ∧
        ev.net.write = none) →
      (keepLockFresh { ctx := Signal.lock p.fresh :: ctx, key := key } evs remote₁).1 = true) ∧
    (∀ (ev : Tick) (remote₁ : Remote) (doc : Record),
      docGet remote₁ (firestoreSafeKey key) = some doc →
      Signal.lock p.fresh ∉ ev.fired → ctxDone ev.fired ctx = false → ev.net.write = none →
      ev.wake = Wake.timer →
      keepLockFreshPass { ctx := Signal.lock p.fresh :: ctx, key := key } ev remote₁ =
        (true, docSet remote₁ (firestoreSafeKey key) { doc with LockedAt := UTCNow ev.wall })) ∧
    (∀ (ev : Tick) (evs : List Tick) (remote₁ : Remote),
      (Signal.lock p.fresh ∈ ev.fired ∨ ctxDone ev.fired ctx = true) →
      keepLockFresh { ctx := Signal.lock p.fresh :: ctx, key := key } (ev :: evs) remote₁ =
        (false, remote₁)) := by
  have hchild : ∀ fired : List Signal,
      ctxDone fired (Signal.lock p.fresh :: ctx) =
        (decide (Signal.lock p.fresh ∈ fired) || ctxDone fired ctx) := by
    intro fired
    simp [ctxDone]
  refine ⟨?_, ?_, ?_, ?_, ?_⟩
  · cases htx : attemptLockTx p.s net (firestoreSafeKey key) check write remote with
    | error err =>
      exfalso
      by_cases he : err = Err.alreadyLocked <;> simp [attemptLock, hlocal, htx, he] at hwin
    | ok remote' =>
      rw [attemptLock_of_commit p net ctx key check write remote remote' hlocal htx]
  · cases htx : attemptLockTx p.s net (firestoreSafeKey key) check write remote with
    | error err =>
      exfalso
      by_cases he : err = Err.alreadyLocked <;> simp [attemptLock, hlocal, htx, he] at hwin
    | ok remote' =>
      rw [attemptLock_of_commit p net ctx key check write remote remote' hlocal htx]
      simp [locksGet]
  · intro evs remote₁ hdoc hevs
    refine keepLockFresh_alive { ctx := Signal.lock p.fresh :: ctx, key := key } evs ?_ remote₁ hdoc
    intro ev hev
    obtain ⟨h1, h2, h3⟩ := hevs ev hev
    refine ⟨?_, h3⟩
    rw [hchild]
    simp [h1, h2]
  · intro ev remote₁ doc hdoc h1 h2 h3 hwk
    have hnd : ctxDone ev.fired (Signal.lock p.fresh :: ctx) = false := by
      rw [hchild]
      simp [h1, h2]
    simp [keepLockFreshPass, hwk, updateFreshness, hnd, remoteUpdate, h3, hdoc]
  · intro ev evs remote₁ hstop
    refine keepLockFresh_of_done _ ev evs remote₁ ?_
    rw [hchild]
    rcases hstop with h | h <;> simp [h]

/-- An instance of `keepLockFresh_lifetime`: a fresh manager acquires `a/b` with a
caller context on signal 0; while nothing has fired the goroutine survives a timer
wake-up at 5s. -/
theorem keepLockFresh_lifetime_witness :
    (keepLockFresh { ctx := Signal.lock Proc.init.fresh :: [Signal.caller 0], key := "a/b" }
      [{ wake := Wake.timer, net := Net.up, wall := 5000000000, fired := [] }]
      (attemptLock Proc.init Net.up [Signal.caller 0] "a/b" 0 0 []).2.2).1 = true :=
  (keepLockFresh_lifetime Proc.init Net.up [Signal.caller 0] "a/b" 0 0 [] (by decide)
    (by decide)).2.2.1
    [{ wake := Wake.timer, net := Net.up, wall := 5000000000, fired := [] }]
    (attemptLock Proc.init Net.up [Signal.caller 0] "a/b" 0 0 []).2.2
    (by decide) (by decide)

/-! ## Encryption round trip -/

/-- The sample AEAD keeps the contract. -/
theorem sampleAEAD_lawful (key : List UInt8) : (sampleAEAD key).Lawful := by
  intro nonce plaintext _
  simp [sampleAEAD]

/-- C10: for every AES key of 16, 24 or 32 bytes, every payload and every nonce that
`encrypt` draws (the entropy source yields the nonce bytes), `encrypt` returns the
nonce followed by the sealed payload, without error, and `decrypt` of that output
returns the payload, without error. The AEAD of the standard library is a
parameter, taken with its contract `AEAD.Lawful`. -/
theorem decrypt_encrypt (aesgcm : List UInt8 → AEAD) (s : Storage)
    (entropy payload : List UInt8)
    (hlaw : (aesgcm s.AesKey).Lawful)
    (hkey : s.AesKey.length = 16 ∨ s.AesKey.length = 24 ∨ s.AesKey.length = 32)
    (hrand : (aesgcm s.AesKey).NonceSize ≤ entropy.length) :
    encrypt aesgcm s entropy payload =
      .ok (entropy.take (aesgcm s.AesKey).NonceSize ++
        (aesgcm s.AesKey).Seal (entropy.take (aesgcm s.AesKey).NonceSize) payload) ∧
    decrypt aesgcm s
      (entropy.take (aesgcm s.AesKey).NonceSize ++
        (aesgcm s.AesKey).Seal (entropy.take (aesgcm s.AesKey).NonceSize) payload) =
      .ok payload := by
  have hlen : (entropy.take (aesgcm s.AesKey).NonceSize).length = (aesgcm s.AesKey).NonceSize := by
    simp [List.length_take, hrand]
  have hgcm : getAESGCM aesgcm s = .ok (aesgcm s.AesKey) := by
    simp [getAESGCM, hkey]
  refine ⟨?_, ?_⟩
  · simp [encrypt, hgcm, readFull, hrand]
  · have hopen := hlaw (entropy.take (aesgcm s.AesKey).NonceSize) payload hlen
    have htake : List.take (aesgcm s.AesKey).NonceSize
        (entropy.take (aesgcm s.AesKey).NonceSize ++
          (aesgcm s.AesKey).Seal (entropy.take (aesgcm s.AesKey).NonceSize) payload) =
        entropy.take (aesgcm s.AesKey).NonceSize := by
      exact List.take_left' hlen
    have hdrop : List.drop (aesgcm s.AesKey).NonceSize
        (entropy.take (aesgcm s.AesKey).NonceSize ++
          (aesgcm s.AesKey).Seal (entropy.take (aesgcm s.AesKey).NonceSize) payload) =
        (aesgcm s.AesKey).Seal (entropy.take (aesgcm s.AesKey).NonceSize) payload := by
      exact List.drop_left' hlen
    have hnc : ¬ ((entropy.take (aesgcm s.AesKey).NonceSize ++
        (aesgcm s.AesKey).Seal (entropy.take (aesgcm s.AesKey).NonceSize) payload).length <
        (aesgcm s.AesKey).NonceSize) := by
      rw [List.length_append, hlen]
      omega
    simp only [decrypt, hgcm, hnc, if_false, htake, hdrop, hopen]

/-- Witness of `decrypt_encrypt`: the 16-byte key of the package test, the sample
AEAD, a 12-byte nonce and a 3-byte payload. -/
theorem decrypt_encrypt_witness :
    decrypt sampleAEAD { New with AesKey := List.replicate 16 48 }
      (List.take 12 (List.replicate 12 7) ++
        (sampleAEAD (List.replicate 16 48)).Seal (List.take 12 (List.replicate 12 7)) [1, 2, 3]) =
      .ok [1, 2, 3] :=
  (decrypt_encrypt sampleAEAD { New with AesKey := List.replicate 16 48 }
    (List.replicate 12 7) [1, 2, 3] (sampleAEAD_lawful _) (by decide) (by decide)).2

/-! ## Truncated ciphertext -/

/-- What `decrypt` does on an input shorter than the nonce: the slice expression
panics. -/
theorem decrypt_of_short (aesgcm : List UInt8 → AEAD) (s : Storage) (ciphertext : List UInt8)
    (hkey : s.AesKey.length = 16 ∨ s.AesKey.length = 24 ∨ s.AesKey.length = 32)
    (hshort : ciphertext.length < (aesgcm s.AesKey).NonceSize) :
    decrypt aesgcm s ciphertext = .crash "slice bounds out of range" := by
  simp [decrypt, getAESGCM, hkey, hshort]

/-- C11 (the code at the failing inputs): with a valid key, `decrypt` of an input
shorter than the nonce does not return an error: the slice expressions
`ciphertext[:n]`, `ciphertext[n:]` panic. `Load` and `Stat` of a document whose
`raw` is that input (the empty `raw` of a lock-only document included) panic with
it. -/
theorem decrypt_truncated_crashes (aesgcm : List UInt8 → AEAD) (s : Storage)
    (ciphertext : List UInt8)
    (hkey : s.AesKey.length = 16 ∨ s.AesKey.length = 24 ∨ s.AesKey.length = 32)
    (hshort : ciphertext.length < (aesgcm s.AesKey).NonceSize) :
    decrypt aesgcm s ciphertext = .crash "slice bounds out of range" ∧
    (∀ (net : Net) (remote : Remote) (key : String) (doc : Record),
      net.read = none → docGet remote (firestoreSafeKey key) = some doc →
      doc.Raw = ciphertext →
      Load aesgcm s net remote key = .crash "slice bounds out of range" ∧
      Stat aesgcm s net remote key = .crash "slice bounds out of range") := by
  have hd := decrypt_of_short aesgcm s ciphertext hkey hshort
  refine ⟨hd, ?_⟩
  intro net remote key doc hread hdoc hraw
  subst hraw
  simp [Load, Stat, loadAndDecrypt, remoteGet, hread, hdoc, hd]

/-- Witness of `decrypt_truncated_crashes`: the 16-byte key of the package test and
the lock-only document that `attemptLock` creates for `a/b` on an empty
collection; its `raw` is empty, `Load` and `Stat` of `a/b` panic. -/
theorem decrypt_truncated_crashes_witness :
    decrypt sampleAEAD { New with AesKey := List.replicate 16 48 } [] =
      .crash "slice bounds out of range" ∧
    Load sampleAEAD { New with AesKey := List.replicate 16 48 } Net.up
      (attemptLock Proc.init Net.up [] "a/b" 0 0 []).2.2 "a/b" =
      .crash "slice bounds out of range" ∧
    Stat sampleAEAD { New with AesKey := List.replicate 16 48 } Net.up
      (attemptLock Proc.init Net.up [] "a/b" 0 0 []).2.2 "a/b" =
      .crash "slice bounds out of range" :=
  have h := decrypt_truncated_crashes sampleAEAD { New with AesKey := List.replicate 16 48 } []
    (by decide) (by decide)
  ⟨h.1, h.2 Net.up (attemptLock Proc.init Net.up [] "a/b" 0 0 []).2.2 "a/b"
    { Raw := [], Locked := true, LockedAt := 0, CreatedAt := 0, UpdatedAt := 0 }
    rfl (by decide) rfl⟩

/-! ## Store, load, delete -/

/-- What `encrypt` has done when it returns without error. -/
theorem encrypt_ok_inv (aesgcm : List UInt8 → AEAD) (s : Storage)
    (entropy payload ciphertext : List UInt8)
    (h : encrypt aesgcm s entropy payload = .ok ciphertext) :
    (s.AesKey.length = 16 ∨ s.AesKey.length = 24 ∨ s.AesKey.length = 32) ∧
    (aesgcm s.AesKey).NonceSize ≤ entropy.length ∧
    ciphertext = entropy.take (aesgcm s.AesKey).NonceSize ++
      (aesgcm s.AesKey).Seal (entropy.take (aesgcm s.AesKey).NonceSize) payload := by
  unfold encrypt getAESGCM at h
  by_cases hkey : s.AesKey.length = 16 ∨ s.AesKey.length = 24 ∨ s.AesKey.length = 32
  · simp only [hkey, if_true] at h
    unfold readFull at h
    by_cases hrand : (aesgcm s.AesKey).NonceSize ≤ entropy.length
    · simp only [hrand, if_true, Except.ok.injEq] at h
      exact ⟨hkey, hrand, h.symm⟩
    · simp [hrand] at h
  · simp [hkey] at h

/-- The output of a successful `encrypt` decrypts to the payload. -/
theorem decrypt_of_encrypt_ok (aesgcm : List UInt8 → AEAD) (s : Storage)
    (entropy payload ciphertext : List UInt8)
    (hlaw : (aesgcm s.AesKey).Lawful)
    (h : encrypt aesgcm s entropy payload = .ok ciphertext) :
    decrypt aesgcm s ciphertext = .ok payload := by
  obtain ⟨hkey, hrand, hct⟩ := encrypt_ok_inv aesgcm s entropy payload ciphertext h
  subst hct
  have hlen : (entropy.take (aesgcm s.AesKey).NonceSize).length = (aesgcm s.AesKey).NonceSize := by
    simp [List.length_take, hrand]
  have hgcm : getAESGCM aesgcm s = .ok (aesgcm s.AesKey) := by
    simp [getAESGCM, hkey]
  have hopen := hlaw (entropy.take (aesgcm s.AesKey).NonceSize) payload hlen
  have hnc : ¬ ((entropy.take (aesgcm s.AesKey).NonceSize ++
      (aesgcm s.AesKey).Seal (entropy.take (aesgcm s.AesKey).NonceSize) payload).length <
      (aesgcm s.AesKey).NonceSize) := by
    rw [List.length_append, hlen]
    omega
  simp only [decrypt, hgcm, hnc, if_false, List.take_left' hlen, List.drop_left' hlen, hopen]

/-- After the removal there is no document under the identifier. -/
theorem docGet_docDelete_same (remote : Remote) (id : String) :
    docGet (docDelete remote id) id = none := by
  induction remote with
  | nil => rfl
  | cons e rest ih =>
    obtain ⟨k, v⟩ := e
    by_cases hk : k = id
    · simpa [docDelete, hk] using ih
    · simpa [docDelete, docGet, hk] using ih

/-- A transaction of `Store` that commits leaves a document whose `raw` is the
ciphertext. -/
theorem storeTx_ok_raw (net : Net) (id : String) (ciphertext : List UInt8) (wall : Int)
    (remote remote' : Remote) (h : storeTx net id ciphertext wall remote = .ok remote') :
    ∃ doc : Record, docGet remote' id = some doc ∧ doc.Raw = ciphertext := by
  unfold storeTx at h
  cases hget : remoteGet net remote id with
  | error err =>
    rw [hget] at h
    by_cases hnf : IsDocNotFound err = true
    · simp only [hnf, if_true] at h
      unfold remoteCreate at h
      cases hw : net.write with
      | some code => simp [hw] at h
      | none =>
        cases hdoc : docGet remote id with
        | some doc => simp [hw, hdoc] at h
        | none =>
          simp only [hw, hdoc, Except.ok.injEq] at h
          subst h
          exact ⟨{ Raw := ciphertext, Locked := false, LockedAt := zeroTime,
                   CreatedAt := UTCNow wall, UpdatedAt := UTCNow wall },
            by simp [docGet_append, hdoc], rfl⟩
    · simp [hnf] at h
  | ok cert =>
    rw [hget] at h
    unfold remoteUpdate at h
    cases hw : net.write with
    | some code => simp [hw] at h
    | none =>
      cases hdoc : docGet remote id with
      | none => simp [hw, hdoc] at h
      | some doc =>
        simp only [hw, hdoc, Except.ok.injEq] at h
        subst h
        exact ⟨_, docGet_docSet_same remote id doc _ hdoc, rfl⟩

/-- After a `Store` that returned no error, the document of the key holds a
ciphertext that decrypts to the value. -/
theorem Store_ok_inv (aesgcm : List UInt8 → AEAD) (s : Storage) (net : Net)
    (entropy : List UInt8) (key : String) (value : List UInt8) (wall : Int) (remote : Remote)
    (hlaw : (aesgcm s.AesKey).Lawful)
    (h : (Store aesgcm s net entropy key value wall remote).1 = none) :
    ∃ doc : Record,
      docGet (Store aesgcm s net entropy key value wall remote).2 (firestoreSafeKey key) =
        some doc ∧
      decrypt aesgcm s doc.Raw = .ok value := by
  unfold Store at h ⊢
  cases henc : encrypt aesgcm s entropy value with
  | error err => simp [henc] at h
  | ok ciphertext =>
    cases htx : storeTx net (firestoreSafeKey key) ciphertext wall remote with
    | error err => simp [henc, htx] at h
    | ok remote' =>
      obtain ⟨doc, hdoc, hraw⟩ := storeTx_ok_raw net _ ciphertext wall remote remote' htx
      refine ⟨doc, by simpa [htx] using hdoc, ?_⟩
      rw [hraw]
      exact decrypt_of_encrypt_ok aesgcm s entropy value ciphertext hlaw henc

/-- What `StorageExists` and `Load` give for a document whose `raw` decrypts. -/
theorem Load_of_doc (aesgcm : List UInt8 → AEAD) (s : Storage) (net : Net) (remote : Remote)
    (key : String) (doc : Record) (value : List UInt8)
    (hread : net.read = none)
    (hdoc : docGet remote (firestoreSafeKey key) = some doc)
    (hdec : decrypt aesgcm s doc.Raw = .ok value) :
    StorageExists net remote key = true ∧ Load aesgcm s net remote key = .ok value := by
  simp [StorageExists, Load, loadAndDecrypt, remoteGet, hread, hdoc, hdec]

/-- What `StorageExists`, `Load` and `Delete` give when there is no document. -/
theorem Load_of_absent (aesgcm : List UInt8 → AEAD) (s : Storage) (net : Net) (remote : Remote)
    (key : String) (hdoc : docGet remote (firestoreSafeKey key) = none) :
    StorageExists net remote key = false ∧
    (net.read = none →
      Load aesgcm s net remote key = .err (.notExist (.grpc codeNotFound)) ∧
      Delete net remote key = (some (.notExist (.grpc codeNotFound)), remote)) := by
  refine ⟨?_, ?_⟩
  · cases hr : net.read <;> simp [StorageExists, remoteGet, hr, hdoc]
  · intro hread
    simp [Load, Delete, loadAndDecrypt, remoteGet, hread, hdoc, IsDocNotFound]

/-- After a `Delete` that returned no error there is no document of the key. -/
theorem Delete_ok_inv (net : Net) (remote : Remote) (key : String)
    (h : (Delete net remote key).1 = none) :
    docGet (Delete net remote key).2 (firestoreSafeKey key) = none := by
  unfold Delete at h ⊢
  cases hget : remoteGet net remote (firestoreSafeKey key) with
  | error err =>
    by_cases hnf : IsDocNotFound err = true <;> simp [hget, hnf] at h
  | ok cert =>
    unfold remoteDelete at h ⊢
    cases hw : net.write with
    | some code => simp [hget, hw] at h
    | none => simp [docGet_docDelete_same]

/-- Removing a document leaves the others. -/
theorem docGet_docDelete_other (remote : Remote) (id id' : String) (hne : id' ≠ id) :
    docGet (docDelete remote id) id' = docGet remote id' := by
  induction remote with
  | nil => rfl
  | cons e rest ih =>
    obtain ⟨k, v⟩ := e
    by_cases hk : k = id
    · subst hk
      have hk' : ¬ k = id' := fun h => hne h.symm
      simpa [docDelete, docGet, hk'] using ih
    · by_cases hk' : k = id'
      · subst hk'
        simp [docDelete, docGet, hk]
      · simpa [docDelete, docGet, hk, hk'] using ih

/-- A transaction of `Store` that commits leaves the other documents as they were. -/
theorem storeTx_ok_other (net : Net) (id id' : String) (ciphertext : List UInt8) (wall : Int)
    (remote remote' : Remote) (hne : id' ≠ id)
    (h : storeTx net id ciphertext wall remote = .ok remote') :
    docGet remote' id' = docGet remote id' := by
  unfold storeTx at h
  cases hget : remoteGet net remote id with
  | error err =>
    rw [hget] at h
    by_cases hnf : IsDocNotFound err = true
    · simp only [hnf, if_true] at h
      unfold remoteCreate at h
      cases hw : net.write with
      | some code => simp [hw] at h
      | none =>
        cases hdoc : docGet remote id with
        | some doc => simp [hw, hdoc] at h
        | none =>
          simp only [hw, hdoc, Except.ok.injEq] at h
          subst h
          have hne' : ¬ id = id' := fun h => hne h.symm
          simp only [docGet_append, hne', if_false]
          cases docGet remote id' <;> rfl
    · simp [hnf] at h
  | ok cert =>
    rw [hget] at h
    unfold remoteUpdate at h
    cases hw : net.write with
    | some code => simp [hw] at h
    | none =>
      cases hdoc : docGet remote id with
      | none => simp [hw, hdoc] at h
      | some doc =>
        simp only [hw, hdoc, Except.ok.injEq] at h
        subst h
        exact docGet_docSet_other remote id id' _ hne

/-- `Store` never changes the document of another key. -/
theorem Store_other (aesgcm : List UInt8 → AEAD) (s : Storage) (net : Net)
    (entropy : List UInt8) (key : String) (value : List UInt8) (wall : Int) (remote : Remote)
    (id' : String) (hne : id' ≠ firestoreSafeKey key) :
    docGet (Store aesgcm s net entropy key value wall remote).2 id' = docGet remote id' := by
  unfold Store
  cases henc : encrypt aesgcm s entropy value with
  | error err => rfl
  | ok ciphertext =>
    cases htx : storeTx net (firestoreSafeKey key) ciphertext wall remote with
    | error err => simp [htx]
    | ok remote' =>
      simpa [htx] using storeTx_ok_other net _ id' ciphertext wall remote remote' hne htx

/-- With a valid key, enough entropy for the nonce and a network that lets the
calls through, `Store` returns no error. -/
theorem Store_of_up (aesgcm : List UInt8 → AEAD) (s : Storage) (net : Net)
    (entropy : List UInt8) (key : String) (value : List UInt8) (wall : Int) (remote : Remote)
    (hkey : s.AesKey.length = 16 ∨ s.AesKey.length = 24 ∨ s.AesKey.length = 32)
    (hrand : (aesgcm s.AesKey).NonceSize ≤ entropy.length)
    (hread : net.read = none) (hwrite : net.write = none) :
    (Store aesgcm s net entropy key value wall remote).1 = none := by
  have henc : encrypt aesgcm s entropy value =
      .ok (entropy.take (aesgcm s.AesKey).NonceSize ++
        (aesgcm s.AesKey).Seal (entropy.take (aesgcm s.AesKey).NonceSize) value) := by
    simp [encrypt, getAESGCM, hkey, readFull, hrand]
  cases hdoc : docGet remote (firestoreSafeKey key) with
  | none =>
    simp [Store, henc, storeTx, remoteGet, remoteCreate, hread, hwrite, hdoc, IsDocNotFound]
  | some doc =>
    simp [Store, henc, storeTx, remoteGet, remoteUpdate, hread, hwrite, hdoc]

/-- A `Store` that returned no error had a valid key. -/
theorem Store_ok_key (aesgcm : List UInt8 → AEAD) (s : Storage) (net : Net)
    (entropy : List UInt8) (key : String) (value : List UInt8) (wall : Int) (remote : Remote)
    (h : (Store aesgcm s net entropy key value wall remote).1 = none) :
    s.AesKey.length = 16 ∨ s.AesKey.length = 24 ∨ s.AesKey.length = 32 := by
  unfold Store at h
  cases henc : encrypt aesgcm s entropy value with
  | error err => simp [henc] at h
  | ok ciphertext => exact (encrypt_ok_inv aesgcm s entropy value ciphertext henc).1

/-- `Delete` of a key that has a document, on a network that lets the calls
through: no error, and the document is removed. -/
theorem Delete_of_doc (net : Net) (remote : Remote) (key : String) (doc : Record)
    (hread : net.read = none) (hwrite : net.write = none)
    (hdoc : docGet remote (firestoreSafeKey key) = some doc) :
    Delete net remote key = (none, docDelete remote (firestoreSafeKey key)) := by
  simp [Delete, remoteGet, remoteDelete, hread, hwrite, hdoc]

/-- C12: for every key, payload and collection (the AEAD of the library keeping its
contract; reads and writes meant are those the network lets through).
`Store` with a valid key and entropy for the nonce succeeds and changes no other
document; after a `Store` that succeeded, `Exists` is true and `Load` returns
exactly the payload; a second `Store` succeeds too and then `Load` returns the
latest payload. `Delete` of a key that has a document succeeds, removes that
document and no other; after a `Delete` that succeeded, `Exists` is false and
`Load` reports the does-not-exist error; so `Delete` after a `Store` that
succeeded succeeds and leaves the key absent. `Delete` of a key without document
reports the does-not-exist error and changes nothing. -/
theorem Store_Load_Delete_roundtrip (aesgcm : List UInt8 → AEAD) (s : Storage)
    (key : String) (remote : Remote) (hlaw : (aesgcm s.AesKey).Lawful) :
    (∀ (net : Net) (entropy value : List UInt8) (wall : Int),
      (Store aesgcm s net entropy key value wall remote).1 = none →
      ∀ net₁ : Net, net₁.read = none →
        StorageExists net₁ (Store aesgcm s net entropy key value wall remote).2 key = true ∧
        Load aesgcm s net₁ (Store aesgcm s net entropy key value wall remote).2 key = .ok value) ∧
    (∀ (net net' : Net) (entropy entropy' value value' : List UInt8) (wall wall' : Int),
      (Store aesgcm s net entropy key value wall remote).1 = none →
      (Store aesgcm s net' entropy' key value' wall'
        (Store aesgcm s net entropy key value wall remote).2).1 = none →
      ∀ net₁ : Net, net₁.read = none →
        StorageExists net₁ (Store aesgcm s net' entropy' key value' wall'
          (Store aesgcm s net entropy key value wall remote).2).2 key = true ∧
        Load aesgcm s net₁ (Store aesgcm s net' entropy' key value' wall'
          (Store aesgcm s net entropy key value wall remote).2).2 key = .ok value') ∧
    (∀ net : Net, (Delete net remote key).1 = none →
      (∀ net₁ : Net, StorageExists net₁ (Delete net remote key).2 key = false) ∧
      (∀ net₁ : Net, net₁.read = none →
        Load aesgcm s net₁ (Delete net remote key).2 key =
          .err (.notExist (.grpc codeNotFound)))) ∧
    (docGet remote (firestoreSafeKey key) = none →
      ∀ net : Net, net.read = none →
        Delete net remote key = (some (.notExist (.grpc codeNotFound)), remote)) ∧
    (∀ (net : Net) (entropy value : List UInt8) (wall : Int),
      (s.AesKey.length = 16 ∨ s.AesKey.length = 24 ∨ s.AesKey.length = 32) →
      (aesgcm s.AesKey).NonceSize ≤ entropy.length → net.read = none → net.write = none →
      (Store aesgcm s net entropy key value wall remote).1 = none ∧
      (∀ id' : String, id' ≠ firestoreSafeKey key →
        docGet (Store aesgcm s net entropy key value wall remote).2 id' = docGet remote id')) ∧
    (∀ (net net' : Net) (entropy entropy' value value' : List UInt8) (wall wall' : Int),
      (Store aesgcm s net entropy key value wall remote).1 = none →
      (aesgcm s.AesKey).NonceSize ≤ entropy'.length → net'.read = none → net'.write = none →
      (Store aesgcm s net' entropy' key value' wall'
        (Store aesgcm s net entropy key value wall remote).2).1 = none ∧
      Load aesgcm s net' (Store aesgcm s net' entropy' key value' wall'
        (Store aesgcm s net entropy key value wall remote).2).2 key = .ok value') ∧
    (∀ (net : Net) (doc : Record), net.read = none → net.write = none →
      docGet remote (firestoreSafeKey key) = some doc →
      (Delete net remote key).1 = none ∧
      docGet (Delete net remote key).2 (firestoreSafeKey key) = none ∧
      (∀ id' : String, id' ≠ firestoreSafeKey key →
        docGet (Delete net remote key).2 id' = docGet remote id') ∧
      StorageExists net (Delete net remote key).2 key = false ∧
      Load aesgcm s net (Delete net remote key).2 key = .err (.notExist (.grpc codeNotFound))) ∧
    (∀ (net net₂ : Net) (entropy value : List UInt8) (wall : Int),
      (Store aesgcm s net entropy key value wall remote).1 = none →
      net₂.read = none → net₂.write = none →
      (Delete net₂ (Store aesgcm s net entropy key value wall remote).2 key).1 = none ∧
      StorageExists net₂
        (Delete net₂ (Store aesgcm s net entropy key value wall remote).2 key).2 key = false ∧
      Load aesgcm s net₂
        (Delete net₂ (Store aesgcm s net entropy key value wall remote).2 key).2 key =
          .err (.notExist (.grpc codeNotFound)) ∧
      (∀ id' : String, id' ≠ firestoreSafeKey key →
        docGet (Delete net₂ (Store aesgcm s net entropy key value wall remote).2 key).2 id' =
          docGet remote id')) := by
  have hdel : ∀ (net : Net) (r : Remote) (doc : Record), net.read = none → net.write = none →
      docGet r (firestoreSafeKey key) = some doc →
      (Delete net r key).1 = none ∧
      docGet (Delete net r key).2 (firestoreSafeKey key) = none ∧
      (∀ id' : String, id' ≠ firestoreSafeKey key →
        docGet (Delete net r key).2 id' = docGet r id') ∧
      StorageExists net (Delete net r key).2 key = false ∧
      Load aesgcm s net (Delete net r key).2 key = .err (.notExist (.grpc codeNotFound)) := by
    intro net r doc hread hwrite hdoc
    rw [Delete_of_doc net r key doc hread hwrite hdoc]
    have habsent := docGet_docDelete_same r (firestoreSafeKey key)
    exact ⟨rfl, habsent, fun id' hne => docGet_docDelete_other r _ id' hne,
      (Load_of_absent aesgcm s net _ key habsent).1,
      ((Load_of_absent aesgcm s net _ key habsent).2 hread).1⟩
  refine ⟨?_, ?_, ?_, ?_, ?_, ?_, ?_, ?_⟩
  · intro net entropy value wall hok net₁ hread
    obtain ⟨doc, hdoc, hdec⟩ := Store_ok_inv aesgcm s net entropy key value wall remote hlaw hok
    exact Load_of_doc aesgcm s net₁ _ key doc value hread hdoc hdec
  · intro net net' entropy entropy' value value' wall wall' _ hok' net₁ hread
    obtain ⟨doc, hdoc, hdec⟩ := Store_ok_inv aesgcm s net' entropy' key value' wall' _ hlaw hok'
    exact Load_of_doc aesgcm s net₁ _ key doc value' hread hdoc hdec
  · intro net hok
    have habsent := Delete_ok_inv net remote key hok
    refine ⟨fun net₁ => (Load_of_absent aesgcm s net₁ _ key habsent).1, ?_⟩
    intro net₁ hread
    exact ((Load_of_absent aesgcm s net₁ _ key habsent).2 hread).1
  · intro habsent net hread
    exact ((Load_of_absent aesgcm s net remote key habsent).2 hread).2
  · intro net entropy value wall hkey hrand hread hwrite
    exact ⟨Store_of_up aesgcm s net entropy key value wall remote hkey hrand hread hwrite,
      fun id' hne => Store_other aesgcm s net entropy key value wall remote id' hne⟩
  · intro net net' entropy entropy' value value' wall wall' hok hrand hread hwrite
    have hkey := Store_ok_key aesgcm s net entropy key value wall remote hok
    have hok' := Store_of_up aesgcm s net' entropy' key value' wall'
      (Store aesgcm s net entropy key value wall remote).2 hkey hrand hread hwrite
    obtain ⟨doc, hdoc, hdec⟩ := Store_ok_inv aesgcm s net' entropy' key value' wall' _ hlaw hok'
    exact ⟨hok', (Load_of_doc aesgcm s net' _ key doc value' hread hdoc hdec).2⟩
  · intro net doc hread hwrite hdoc
    exact hdel net remote doc hread hwrite hdoc
  · intro net net₂ entropy value wall hok hread hwrite
    obtain ⟨doc, hdoc, _⟩ := Store_ok_inv aesgcm s net entropy key value wall remote hlaw hok
    obtain ⟨h1, _, h3, h4, h5⟩ := hdel net₂ _ doc hread hwrite hdoc
    refine ⟨h1, h4, h5, ?_⟩
    intro id' hne
    rw [h3 id' hne]
    exact Store_other aesgcm s net entropy key value wall remote id' hne

/-- Witness of `Store_Load_Delete_roundtrip`: the round trip of the package test on
the key `a/b/c.txt` with payload `[1, 2, 3]`, the 16-byte test key and the sample
AEAD, on a collection that holds the document of another key: `Store` succeeds,
the key exists and loads; `Delete` of the stored key succeeds, the key is gone,
`Load` reports does-not-exist and the other document is still there; `Delete` of
the absent key reports does-not-exist. -/
theorem Store_Load_Delete_roundtrip_witness :
    (Store sampleAEAD { New with AesKey := List.replicate 16 48 } Net.up (List.replicate 12 7)
      "a/b/c.txt" [1, 2, 3] 1000000
      [("x", { Raw := [], Locked := false, LockedAt := 0, CreatedAt := 0, UpdatedAt := 0 })]).1
      = none ∧
    StorageExists Net.up
      (Store sampleAEAD { New with AesKey := List.replicate 16 48 } Net.up (List.replicate 12 7)
        "a/b/c.txt" [1, 2, 3] 1000000
        [("x", { Raw := [], Locked := false, LockedAt := 0, CreatedAt := 0, UpdatedAt := 0 })]).2
      "a/b/c.txt" = true ∧
    Load sampleAEAD { New with AesKey := List.replicate 16 48 } Net.up
      (Store sampleAEAD { New with AesKey := List.replicate 16 48 } Net.up (List.replicate 12 7)
        "a/b/c.txt" [1, 2, 3] 1000000
        [("x", { Raw := [], Locked := false, LockedAt := 0, CreatedAt := 0, UpdatedAt := 0 })]).2
      "a/b/c.txt" = .ok [1, 2, 3] ∧
    (Delete Net.up
      (Store sampleAEAD { New with AesKey := List.replicate 16 48 } Net.up (List.replicate 12 7)
        "a/b/c.txt" [1, 2, 3] 1000000
        [("x", { Raw := [], Locked := false, LockedAt := 0, CreatedAt := 0, UpdatedAt := 0 })]).2
      "a/b/c.txt").1 = none ∧
    StorageExists Net.up
      (Delete Net.up
        (Store sampleAEAD { New with AesKey := List.replicate 16 48 } Net.up (List.replicate 12 7)
          "a/b/c.txt" [1, 2, 3] 1000000
          [("x", { Raw := [], Locked := false, LockedAt := 0, CreatedAt := 0, UpdatedAt := 0 })]).2
        "a/b/c.txt").2 "a/b/c.txt" = false ∧
    Load sampleAEAD { New with AesKey := List.replicate 16 48 } Net.up
      (Delete Net.up
        (Store sampleAEAD { New with AesKey := List.replicate 16 48 } Net.up (List.replicate 12 7)
          "a/b/c.txt" [1, 2, 3] 1000000
          [("x", { Raw := [], Locked := false, LockedAt := 0, CreatedAt := 0, UpdatedAt := 0 })]).2
        "a/b/c.txt").2 "a/b/c.txt" = .err (.notExist (.grpc codeNotFound)) ∧
    docGet
      (Delete Net.up
        (Store sampleAEAD { New with AesKey := List.replicate 16 48 } Net.up (List.replicate 12 7)
          "a/b/c.txt" [1, 2, 3] 1000000
          [("x", { Raw := [], Locked := false, LockedAt := 0, CreatedAt := 0, UpdatedAt := 0 })]).2
        "a/b/c.txt").2 "x" =
      some { Raw := [], Locked := false, LockedAt := 0, CreatedAt := 0, UpdatedAt := 0 } ∧
    Delete Net.up
      [("x", { Raw := [], Locked := false, LockedAt := 0, CreatedAt := 0, UpdatedAt := 0 })]
      "a/b/c.txt" =
      (some (.notExist (.grpc codeNotFound)),
        [("x", { Raw := [], Locked := false, LockedAt := 0, CreatedAt := 0, UpdatedAt := 0 })]) :=
  have h := Store_Load_Delete_roundtrip sampleAEAD { New with AesKey := List.replicate 16 48 }
    "a/b/c.txt"
    [("x", { Raw := [], Locked := false, LockedAt := 0, CreatedAt := 0, UpdatedAt := 0 })]
    (sampleAEAD_lawful _)
  have hs := (h.2.2.2.2.1 Net.up (List.replicate 12 7) [1, 2, 3] 1000000 (by decide) (by decide)
    rfl rfl).1
  have hl := h.1 Net.up (List.replicate 12 7) [1, 2, 3] 1000000 hs Net.up rfl
  have hd := h.2.2.2.2.2.2.2 Net.up Net.up (List.replicate 12 7) [1, 2, 3] 1000000 hs rfl rfl
  ⟨hs, hl.1, hl.2, hd.1, hd.2.1, hd.2.2.1,
   (hd.2.2.2 "x" (by decide)).trans (by decide),
   h.2.2.2.1 (by decide) Net.up rfl⟩

/-- The package test `Test_Crud`, replayed on an empty collection with the sample
AEAD: nothing exists, `Delete` and `Load` report does-not-exist; after `Store` the
key exists and loads, `Stat` gives the size; a second `Store` replaces the value;
after `Delete` the key is gone. -/
theorem Test_Crud_replay :
    ∃ r₁ r₂ r₃ : Remote,
      StorageExists Net.up [] "c/t.crt" = false ∧
      Delete Net.up [] "c/t.crt" = (some (.notExist (.grpc codeNotFound)), []) ∧
      Load sampleAEAD { New with AesKey := List.replicate 16 48 } Net.up [] "c/t.crt" =
        .err (.notExist (.grpc codeNotFound)) ∧
      Store sampleAEAD { New with AesKey := List.replicate 16 48 } Net.up (List.replicate 12 7)
        "c/t.crt" [1, 2, 3] 1000000 [] = (none, r₁) ∧
      StorageExists Net.up r₁ "c/t.crt" = true ∧
      Load sampleAEAD { New with AesKey := List.replicate 16 48 } Net.up r₁ "c/t.crt" =
        .ok [1, 2, 3] ∧
      Stat sampleAEAD { New with AesKey := List.replicate 16 48 } Net.up r₁ "c/t.crt" =
        .ok { Key := "c/t.crt", Modified := 1000000, Size := 3, IsTerminal := false } ∧
      Store sampleAEAD { New with AesKey := List.replicate 16 48 } Net.up (List.replicate 12 9)
        "c/t.crt" [4, 5] 2000000 r₁ = (none, r₂) ∧
      Load sampleAEAD { New with AesKey := List.replicate 16 48 } Net.up r₂ "c/t.crt" =
        .ok [4, 5] ∧
      Stat sampleAEAD { New with AesKey := List.replicate 16 48 } Net.up r₂ "c/t.crt" =
        .ok { Key := "c/t.crt", Modified := 2000000, Size := 2, IsTerminal := false } ∧
      Delete Net.up r₂ "c/t.crt" = (none, r₃) ∧
      StorageExists Net.up r₃ "c/t.crt" = false := by
  refine ⟨_, _, _, ?_, ?_, ?_, rfl, ?_, ?_, ?_, rfl, ?_, ?_, rfl, ?_⟩ <;> decide

/-! ## Key codec -/

/-- On characters: mapping slashes to backslashes and back is the identity on a
list without backslash. -/
theorem map_back_map_safe (cs : List Char) (h : '\\' ∉ cs) :
    (cs.map (fun c => if c = '/' then '\\' else c)).map (fun c => if c = '\\' then '/' else c)
      = cs := by
  induction cs with
  | nil => rfl
  | cons c rest ih =>
    have hc : c ≠ '\\' := fun hc => h (by simp [hc])
    have hrest : '\\' ∉ rest := fun hr => h (List.mem_cons_of_mem c hr)
    simp only [List.map_cons, ih hrest]
    congr 1
    by_cases hs : c = '/'
    · simp [hs]
    · simp [hs, hc]

/-- On a key without backslash the reverse mapping undoes `firestoreSafeKey`. -/
theorem logicalKey_firestoreSafeKey (key : String) (h : '\\' ∉ key.data) :
    logicalKey (firestoreSafeKey key) = key := by
  obtain ⟨cs⟩ := key
  simp only [logicalKey, firestoreSafeKey]
  exact congrArg String.mk (map_back_map_safe cs h)

/-- C13: for every key without backslash, `firestoreSafeKey key` has no forward
slash, replacing its backslashes by forward slashes (the reverse mapping of `List`)
gives the key back, and no other backslash-free key has the same document
identifier. -/
theorem firestoreSafeKey_bijective (key : String) (h : '\\' ∉ key.data) :
    '/' ∉ (firestoreSafeKey key).data ∧
    logicalKey (firestoreSafeKey key) = key ∧
    (∀ key' : String, '\\' ∉ key'.data → firestoreSafeKey key = firestoreSafeKey key' →
      key = key') := by
  refine ⟨?_, logicalKey_firestoreSafeKey key h, ?_⟩
  · simp only [firestoreSafeKey, List.mem_map, not_exists, not_and]
    intro c _ hc
    by_cases hs : c = '/'
    · simp [hs] at hc
    · simp [hs] at hc
  · intro key' h' heq
    rw [← logicalKey_firestoreSafeKey key h, ← logicalKey_firestoreSafeKey key' h', heq]

/-- Witness of `firestoreSafeKey_bijective`: the certificate key of the package
test `Test_keyToRef`. -/
theorem firestoreSafeKey_bijective_witness :
    firestoreSafeKey "certificates/issuer/domain.com/domain.com.crt" =
      "certificates\\issuer\\domain.com\\domain.com.crt" ∧
    logicalKey (firestoreSafeKey "certificates/issuer/domain.com/domain.com.crt") =
      "certificates/issuer/domain.com/domain.com.crt" :=
  ⟨by decide,
   (firestoreSafeKey_bijective "certificates/issuer/domain.com/domain.com.crt" (by decide)).2.1⟩

/-! ## Listing -/

/-- C16 (the code at the failing inputs): the key `ab/c` is stored and `List("a",
false)` returns the one entry `a/ab`, which is not an ancestor path of the stored
key; the key `a` alone is stored and `List("a", false)` returns `a/a`, which is not
an ancestor path of it either. -/
theorem StorageList_phantom_entry :
    (Store sampleAEAD { New with AesKey := List.replicate 16 48 } Net.up (List.replicate 12 7)
      "ab/c" [1] 0 []).1 = none ∧
    StorageList Net.up
      (Store sampleAEAD { New with AesKey := List.replicate 16 48 } Net.up (List.replicate 12 7)
        "ab/c" [1] 0 []).2 "a" false = (["a/ab"], none) ∧
    isAncestorPath "a/ab" "ab/c" = false ∧
    (Store sampleAEAD { New with AesKey := List.replicate 16 48 } Net.up (List.replicate 12 7)
      "a" [1] 0 []).1 = none ∧
    StorageList Net.up
      (Store sampleAEAD { New with AesKey := List.replicate 16 48 } Net.up (List.replicate 12 7)
        "a" [1] 0 []).2 "a" false = (["a/a"], none) ∧
    isAncestorPath "a/a" "a" = false := by
  decide

/-- Splitting a list that ends in a separator and a piece without separator: the
piece is the last part. -/
theorem splitOn_append_piece (xs seg : List Char) (hseg : '/' ∉ seg) :
    (xs ++ '/' :: seg).splitOn '/' = xs.splitOn '/' ++ [seg] := by
  have hsingle : seg.splitOn '/' = [seg] := by
    refine List.splitOnP_eq_single _ _ ?_
    intro y hy H
    rw [eq_of_beq H] at hy
    exact hseg hy
  induction xs with
  | nil =>
    simp only [List.nil_append, List.splitOn, List.splitOnP_cons, beq_self_eq_true, if_true,
      List.splitOnP_nil, List.singleton_append, List.cons.injEq, true_and]
    exact hsingle
  | cons x rest ih =>
    simp only [List.splitOn, List.cons_append, List.splitOnP_cons] at ih ⊢
    by_cases hx : (x == '/') = true
    · simp only [hx, if_true, List.cons_append, List.cons.injEq, true_and]
      exact ih
    · simp only [hx, Bool.false_eq_true, if_false]
      rw [ih]
      cases hL : List.splitOnP (fun c => c == '/') rest with
      | nil => exact absurd hL (List.splitOnP_ne_nil _ _)
      | cons hd tl => rfl

/-- A plain segment is kept by `path.Clean` as it is. -/
theorem cleanStep_plain (rooted : Bool) (out : List (List Char)) (seg : List Char)
    (h : plainSegment seg) : cleanStep rooted out seg = out ++ [seg] := by
  obtain ⟨h1, h2, h3, _⟩ := h
  simp [cleanStep, h1, h2, h3]

/-- Joining segments by slashes, the last segment apart. -/
theorem intercalate_append_single (P : List (List Char)) (seg : List Char) :
    [('/' : Char)].intercalate (P ++ [seg]) =
      (if P = [] then [] else [('/' : Char)].intercalate P ++ ['/']) ++ seg := by
  induction P with
  | nil => simp [List.intercalate]
  | cons hd tl ih =>
    cases tl with
    | nil => simp [List.intercalate]
    | cons hd' tl' =>
      simp only [List.intercalate, List.cons_append, List.intersperse_cons_cons,
        List.flatten_cons] at ih ⊢
      simp only [reduceCtorEq, if_false] at ih ⊢
      rw [ih]
      simp [List.append_assoc]

/-- For a plain segment, `path.Join` of a prefix and the segment is a string that
depends on the prefix alone, followed by the segment. -/
theorem pathJoin_plain (pfx : String) :
    ∃ base : List Char, ∀ seg : List Char, plainSegment seg →
      pathJoin pfx (String.mk seg) = String.mk (base ++ seg) := by
  by_cases hp : pfx = ""
  · refine ⟨[], ?_⟩
    intro seg hseg
    obtain ⟨h1, h2, h3, h4⟩ := hseg
    have hne : String.mk seg ≠ "" := by
      intro h
      exact h1 (congrArg String.data h)
    have hsingle : seg.splitOn '/' = [seg] := by
      refine List.splitOnP_eq_single _ _ ?_
      intro y hy H
      rw [eq_of_beq H] at hy
      exact h4 hy
    have hhead : ¬ seg.head? = some '/' := by
      intro h
      cases seg with
      | nil => exact h1 rfl
      | cons c cs =>
        simp only [List.head?_cons, Option.some.injEq] at h
        exact h4 (by simp [h])
    simp only [pathJoin, hp, ne_eq, not_true_eq_false, if_false, hne, not_false_eq_true, if_true,
      pathClean, hhead, decide_False, hsingle, List.foldl_cons, List.foldl_nil,
      cleanStep_plain false [] seg ⟨h1, h2, h3, h4⟩, Bool.false_eq_true]
    simp [List.intercalate, h1]
  · refine ⟨(if decide (pfx.data.head? = some '/') = true then ['/'] else []) ++
      (if (pfx.data.splitOn '/').foldl (cleanStep (decide (pfx.data.head? = some '/'))) [] = []
        then []
        else [('/' : Char)].intercalate
          ((pfx.data.splitOn '/').foldl (cleanStep (decide (pfx.data.head? = some '/'))) []) ++
          ['/']), ?_⟩
    intro seg hseg
    have hdata : (pfx ++ "/" ++ String.mk seg).data = pfx.data ++ '/' :: seg := by
      simp [String.data_append]
    have hpd : pfx.data ≠ [] := by
      intro h
      exact hp (String.ext h)
    have hhead : (pfx.data ++ '/' :: seg).head? = pfx.data.head? := by
      cases hd : pfx.data with
      | nil => exact absurd hd hpd
      | cons c cs => rfl
    have hres : ∀ (R B : List Char), R ++ (B ++ seg) ≠ [] := by
      intro R B h
      have := congrArg List.length h
      simp only [List.length_append, List.length_nil] at this
      have hl : 0 < seg.length := List.length_pos.mpr hseg.1
      omega
    simp only [pathJoin, hp, ne_eq, not_false_eq_true, if_true, pathClean, hdata, hhead,
      splitOn_append_piece pfx.data seg hseg.2.2.2, List.foldl_append, List.foldl_cons,
      List.foldl_nil, cleanStep_plain _ _ seg hseg, intercalate_append_single]
    rw [if_neg (hres _ _)]
    simp [List.append_assoc]

/-- The segment that `List` files a key under, for a key that lies under the
prefix: its first path segment beyond the prefix. -/
theorem firstSegment_of_under (pfx key : String) (seg : List Char)
    (h : firstSegmentUnder pfx key seg) :
    (splitSlash (trimPrefix key (pfx ++ "/"))).headD "" = String.mk seg := by
  obtain ⟨⟨h1, h2, h3, h4⟩, rest, hkey, hrest⟩ := h
  have hsplit : ((seg ++ rest).splitOn '/').head? = some seg := by
    have hno : ∀ x ∈ seg, ¬ (x == '/') = true := by
      intro y hy H
      rw [eq_of_beq H] at hy
      exact h4 hy
    rcases hrest with hr | hr
    · subst hr
      rw [List.append_nil, List.splitOn, List.splitOnP_eq_single _ _ hno]
      rfl
    · cases rest with
      | nil => simp at hr
      | cons c cs =>
        simp only [List.head?_cons, Option.some.injEq] at hr
        subst hr
        rw [List.splitOn, List.splitOnP_first _ _ hno '/' (by simp)]
        rfl
  have htrim : (trimPrefix key (pfx ++ "/")).data = seg ++ rest := by
    by_cases hp : pfx = ""
    · subst hp
      have hk : key.data = seg ++ rest := by simpa [leadOf] using hkey
      have hnp : hasPrefix key ("" ++ "/") = false := by
        cases seg with
        | nil => exact absurd rfl h1
        | cons c cs =>
          have hc : c ≠ '/' := fun hc => h4 (by simp [hc])
          have hbeq : ('/' == c) = false := by
            simp only [beq_eq_false_iff_ne, ne_eq]
            exact fun hc' => hc hc'.symm
          have hd : ("" ++ "/" : String).data = ['/'] := rfl
          simp only [hasPrefix, hk, hd, List.cons_append, List.isPrefixOf, hbeq, Bool.false_and]
      rw [trimPrefix, hnp]
      simpa using hk
    · have hk : key.data = (pfx.data ++ ['/']) ++ (seg ++ rest) := by
        simpa [leadOf, hp, List.append_assoc] using hkey
      have hpre : hasPrefix key (pfx ++ "/") = true := by
        simp only [hasPrefix, String.data_append, hk, List.isPrefixOf_iff_prefix]
        exact List.prefix_append _ _
      simp only [trimPrefix, hpre, if_true, hk, String.data_append]
      exact List.drop_left' rfl
  simp only [splitSlash, htrim]
  cases hL : (seg ++ rest).splitOn '/' with
  | nil => simp [hL] at hsplit
  | cons hd tl =>
    rw [hL] at hsplit
    simp only [List.head?_cons, Option.some.injEq] at hsplit
    simp [hsplit]

/-- A clean path is not empty and `path.Clean` keeps its segments. -/
theorem foldl_cleanStep_plain (rooted : Bool) (L : List (List Char))
    (h : ∀ seg ∈ L, plainSegment seg) :
    ∀ out : List (List Char), L.foldl (cleanStep rooted) out = out ++ L := by
  induction L with
  | nil => intro out; simp
  | cons hd tl ih =>
    intro out
    rw [List.foldl_cons, cleanStep_plain rooted out hd (h hd (List.mem_cons_self hd tl)),
      ih (fun seg hs => h seg (List.mem_cons_of_mem hd hs))]
    simp

/-- For a clean prefix and a plain segment, `path.Join` is the prefix, a slash and
the segment. -/
theorem pathJoin_clean (pfx : String) (seg : List Char) (hpfx : cleanPath pfx)
    (hseg : plainSegment seg) :
    pathJoin pfx (String.mk seg) = pfx ++ "/" ++ String.mk seg := by
  have hne : pfx.data.splitOn '/' ≠ [] := List.splitOnP_ne_nil _ _
  have hpd : pfx.data ≠ [] := by
    intro h
    have : ([] : List Char) ∈ pfx.data.splitOn '/' := by rw [h]; simp
    exact (hpfx [] this).1 rfl
  have hp : pfx ≠ "" := fun h => hpd (congrArg String.data h)
  have hroot : ¬ pfx.data.head? = some '/' := by
    intro h
    cases hd : pfx.data with
    | nil => exact hpd hd
    | cons c cs =>
      rw [hd] at h
      simp only [List.head?_cons, Option.some.injEq] at h
      subst h
      have : ([] : List Char) ∈ pfx.data.splitOn '/' := by
        rw [hd]
        simp [List.splitOn]
      exact (hpfx [] this).1 rfl
  have hdata : (pfx ++ "/" ++ String.mk seg).data = pfx.data ++ '/' :: seg := by
    simp [String.data_append]
  have hhead : (pfx.data ++ '/' :: seg).head? = pfx.data.head? := by
    cases hd : pfx.data with
    | nil => exact absurd hd hpd
    | cons c cs => rfl
  have hres : ∀ B : List Char, B ++ seg ≠ [] := by
    intro B h
    have := congrArg List.length h
    simp only [List.length_append, List.length_nil] at this
    have hl : 0 < seg.length := List.length_pos.mpr hseg.1
    omega
  have hjoin : [('/' : Char)].intercalate (pfx.data.splitOn '/') = pfx.data :=
    List.intercalate_splitOn _ '/'
  apply String.ext
  rw [hdata]
  simp only [pathJoin, hp, ne_eq, not_false_eq_true, if_true, pathClean, hdata, hhead, hroot,
    decide_False, splitOn_append_piece pfx.data seg hseg.2.2.2, List.foldl_append,
    List.foldl_cons, List.foldl_nil, cleanStep_plain _ _ seg hseg,
    foldl_cleanStep_plain false _ hpfx [], List.nil_append, intercalate_append_single, hne,
    if_false, hjoin, Bool.false_eq_true]
  rw [if_neg (hres _)]
  simp

/-- What non-recursive `List` returns when some document matches the prefix. -/
theorem StorageList_of_match (remote : Remote) (pfx : String)
    (hmatch : ∃ e ∈ remote, hasPrefix e.1 (firestoreSafeKey pfx) = true) :
    StorageList Net.up remote pfx false =
      (((((remote.filter (fun e => hasPrefix e.1 (firestoreSafeKey pfx))).map
          (fun e => logicalKey e.1)).map
          (fun key => (splitSlash (trimPrefix key (pfx ++ "/"))).headD "")).dedup).map
          (fun key => pathJoin pfx key), none) := by
  obtain ⟨e, he, hp⟩ := hmatch
  have hmem : e ∈ remote.filter (fun e => hasPrefix e.1 (firestoreSafeKey pfx)) :=
    List.mem_filter.mpr ⟨he, hp⟩
  have hlen : ¬ ((remote.filter (fun e => hasPrefix e.1 (firestoreSafeKey pfx))).map
      (fun e => logicalKey e.1)).length = 0 := by
    rw [List.length_map]
    exact Nat.pos_iff_ne_zero.mp (List.length_pos_of_mem hmem)
  simp only [StorageList, Net.up, hlen, if_false, Bool.false_eq_true]

/-- C14 (as the claim states it, refuted): the keys `a//x` and `a/./y` are stored;
both match the prefix `a`, their first segments beyond it (the empty one and `.`)
are distinct, and `path.Join` maps both to `a`: `List("a", false)` returns the list
`a`, `a`, which has a duplicate. -/
theorem StorageList_duplicate_counterexample :
    (Store sampleAEAD { New with AesKey := List.replicate 16 48 } Net.up (List.replicate 12 7)
      "a/./y" [2] 0
      (Store sampleAEAD { New with AesKey := List.replicate 16 48 } Net.up (List.replicate 12 7)
        "a//x" [1] 0 []).2).1 = none ∧
    StorageList Net.up
      (Store sampleAEAD { New with AesKey := List.replicate 16 48 } Net.up (List.replicate 12 7)
        "a/./y" [2] 0
        (Store sampleAEAD { New with AesKey := List.replicate 16 48 } Net.up (List.replicate 12 7)
          "a//x" [1] 0 []).2).2 "a" false = (["a", "a"], none) ∧
    ¬ (["a", "a"] : List String).Nodup := by
  decide

/-- C14 (amended): for every collection and every prefix such that every stored key
that matches the prefix lies under it, as `prefix/segment` or `prefix/segment/...`
with a plain segment (not empty, not `.` or `..`), and at least one key matches:
non-recursive `List` returns, without error, a list without duplicates whose
entries are exactly `path.Join(prefix, segment)` for the first segments of the
matching keys, distinct segments giving distinct entries; for a clean prefix the
entry is `prefix/segment`. A stored key is the key `List` reads back from the
document identifier. -/
theorem StorageList_nonrecursive (remote : Remote) (pfx : String)
    (hunder : ∀ e ∈ remote, hasPrefix e.1 (firestoreSafeKey pfx) = true →
      ∃ seg : List Char, firstSegmentUnder pfx (logicalKey e.1) seg)
    (hmatch : ∃ e ∈ remote, hasPrefix e.1 (firestoreSafeKey pfx) = true) :
    (StorageList Net.up remote pfx false).2 = none ∧
    (StorageList Net.up remote pfx false).1.Nodup ∧
    (∀ entry : String, entry ∈ (StorageList Net.up remote pfx false).1 ↔
      ∃ e ∈ remote, hasPrefix e.1 (firestoreSafeKey pfx) = true ∧
        ∃ seg : List Char, firstSegmentUnder pfx (logicalKey e.1) seg ∧
          entry = pathJoin pfx (String.mk seg)) ∧
    (∀ seg seg' : List Char, plainSegment seg → plainSegment seg' →
      pathJoin pfx (String.mk seg) = pathJoin pfx (String.mk seg') → seg = seg') ∧
    (cleanPath pfx → ∀ seg : List Char, plainSegment seg →
      pathJoin pfx (String.mk seg) = pfx ++ "/" ++ String.mk seg) := by
  obtain ⟨base, hbase⟩ := pathJoin_plain pfx
  have hinj : ∀ seg seg' : List Char, plainSegment seg → plainSegment seg' →
      pathJoin pfx (String.mk seg) = pathJoin pfx (String.mk seg') → seg = seg' := by
    intro seg seg' h h' heq
    rw [hbase seg h, hbase seg' h'] at heq
    exact List.append_cancel_left (congrArg String.data heq)
  have hseg : ∀ x : String,
      x ∈ ((remote.filter (fun e => hasPrefix e.1 (firestoreSafeKey pfx))).map
          (fun e => logicalKey e.1)).map
          (fun key => (splitSlash (trimPrefix key (pfx ++ "/"))).headD "") ↔
      ∃ e ∈ remote, hasPrefix e.1 (firestoreSafeKey pfx) = true ∧
        ∃ seg : List Char, firstSegmentUnder pfx (logicalKey e.1) seg ∧ x = String.mk seg := by
    intro x
    simp only [List.map_map, List.mem_map, List.mem_filter, Function.comp]
    constructor
    · rintro ⟨e, ⟨he, hp⟩, hx⟩
      obtain ⟨seg, hs⟩ := hunder e he hp
      refine ⟨e, he, hp, seg, hs, ?_⟩
      rw [← hx]
      exact firstSegment_of_under pfx _ seg hs
    · rintro ⟨e, he, hp, seg, hs, hx⟩
      refine ⟨e, ⟨he, hp⟩, ?_⟩
      rw [hx]
      exact firstSegment_of_under pfx _ seg hs
  rw [StorageList_of_match remote pfx hmatch]
  refine ⟨rfl, ?_, ?_, hinj, fun hc seg hs => pathJoin_clean pfx seg hc hs⟩
  · refine List.Nodup.map_on ?_ (List.nodup_dedup _)
    intro x hx y hy hxy
    obtain ⟨_, _, _, seg, hs, rfl⟩ := (hseg x).mp (List.mem_dedup.mp hx)
    obtain ⟨_, _, _, seg', hs', rfl⟩ := (hseg y).mp (List.mem_dedup.mp hy)
    rw [hinj seg seg' hs.1 hs'.1 hxy]
  · intro entry
    constructor
    · intro h
      obtain ⟨x, hx, hxe⟩ := List.mem_map.mp h
      obtain ⟨e, he, hp, seg, hs, rfl⟩ := (hseg x).mp (List.mem_dedup.mp hx)
      exact ⟨e, he, hp, seg, hs, hxe.symm⟩
    · rintro ⟨e, he, hp, seg, hs, hxe⟩
      exact List.mem_map.mpr ⟨String.mk seg,
        List.mem_dedup.mpr ((hseg _).mpr ⟨e, he, hp, seg, hs, rfl⟩), hxe.symm⟩

/-- Witness of `StorageList_nonrecursive`: the documents of `a/b/c.txt`,
`a/b/meta.json` and `a/other/key.pem`; `List("a", false)` returns exactly `a/b` and
`a/other`. -/
theorem StorageList_nonrecursive_witness :
    (StorageList Net.up
      [("a\\b\\c.txt", { Raw := [], Locked := false, LockedAt := 0, CreatedAt := 0, UpdatedAt := 0 }),
       ("a\\b\\meta.json", { Raw := [], Locked := false, LockedAt := 0, CreatedAt := 0, UpdatedAt := 0 }),
       ("a\\other\\key.pem", { Raw := [], Locked := false, LockedAt := 0, CreatedAt := 0, UpdatedAt := 0 })] "a" false).1.Nodup ∧
    "a/b" ∈ (StorageList Net.up
      [("a\\b\\c.txt", { Raw := [], Locked := false, LockedAt := 0, CreatedAt := 0, UpdatedAt := 0 }),
       ("a\\b\\meta.json", { Raw := [], Locked := false, LockedAt := 0, CreatedAt := 0, UpdatedAt := 0 }),
       ("a\\other\\key.pem", { Raw := [], Locked := false, LockedAt := 0, CreatedAt := 0, UpdatedAt := 0 })] "a" false).1 ∧
    "a/other" ∈ (StorageList Net.up
      [("a\\b\\c.txt", { Raw := [], Locked := false, LockedAt := 0, CreatedAt := 0, UpdatedAt := 0 }),
       ("a\\b\\meta.json", { Raw := [], Locked := false, LockedAt := 0, CreatedAt := 0, UpdatedAt := 0 }),
       ("a\\other\\key.pem", { Raw := [], Locked := false, LockedAt := 0, CreatedAt := 0, UpdatedAt := 0 })] "a" false).1 ∧
    (StorageList Net.up
      [("a\\b\\c.txt", { Raw := [], Locked := false, LockedAt := 0, CreatedAt := 0, UpdatedAt := 0 }),
       ("a\\b\\meta.json", { Raw := [], Locked := false, LockedAt := 0, CreatedAt := 0, UpdatedAt := 0 }),
       ("a\\other\\key.pem", { Raw := [], Locked := false, LockedAt := 0, CreatedAt := 0, UpdatedAt := 0 })] "a" false).1.length = 2 :=
  have hb : ∀ rest : List Char, rest.head? = some '/' →
      ∀ key : String, key.data = leadOf "a" ++ ['b'] ++ rest →
        firstSegmentUnder "a" key ['b'] :=
    fun rest hr key hk => ⟨⟨by decide, by decide, by decide, by decide⟩, rest, hk, Or.inr hr⟩
  have ho : ∀ rest : List Char, rest.head? = some '/' →
      ∀ key : String, key.data = leadOf "a" ++ ['o', 't', 'h', 'e', 'r'] ++ rest →
        firstSegmentUnder "a" key ['o', 't', 'h', 'e', 'r'] :=
    fun rest hr key hk => ⟨⟨by decide, by decide, by decide, by decide⟩, rest, hk, Or.inr hr⟩
  have h := StorageList_nonrecursive
    [("a\\b\\c.txt", { Raw := [], Locked := false, LockedAt := 0, CreatedAt := 0, UpdatedAt := 0 }),
       ("a\\b\\meta.json", { Raw := [], Locked := false, LockedAt := 0, CreatedAt := 0, UpdatedAt := 0 }),
       ("a\\other\\key.pem", { Raw := [], Locked := false, LockedAt := 0, CreatedAt := 0, UpdatedAt := 0 })] "a"
    (by
      intro e he _
      simp only [List.mem_cons, List.mem_singleton, List.not_mem_nil, or_false] at he
      rcases he with rfl | rfl | rfl
      · exact ⟨['b'], hb "/c.txt".data (by decide) _ (by decide)⟩
      · exact ⟨['b'], hb "/meta.json".data (by decide) _ (by decide)⟩
      · exact ⟨['o', 't', 'h', 'e', 'r'], ho "/key.pem".data (by decide) _ (by decide)⟩)
    ⟨_, List.mem_cons_self _ _, by decide⟩
  ⟨h.2.1,
   (h.2.2.1 "a/b").mpr ⟨_, List.mem_cons_self _ _, by decide, ['b'],
     hb "/c.txt".data (by decide) _ (by decide), by decide⟩,
   (h.2.2.1 "a/other").mpr ⟨_, List.mem_cons_of_mem _ (List.mem_cons_of_mem _ (List.mem_cons_self _ _)),
     by decide, ['o', 't', 'h', 'e', 'r'], ho "/key.pem".data (by decide) _ (by decide), by decide⟩,
   by decide⟩

/-! ## Backoff: float64 rounding -/

/-- The significand left after dropping the excess bits has at most 53 bits. -/
theorem excessBits_lt (fuel : Nat) :
    ∀ M : Nat, M ≤ fuel → M < 2 ^ excessBits fuel M * 9007199254740992 := by
  induction fuel with
  | zero =>
    intro M h
    have : M = 0 := by omega
    subst this
    simp [excessBits]
  | succ fuel ih =>
    intro M h
    unfold excessBits
    by_cases hM : M < 9007199254740992
    · simp [hM]
    · simp only [hM, if_false]
      have h2 : M / 2 ≤ fuel := by omega
      have := ih (M / 2) h2
      rw [Nat.pow_succ]
      omega

/-- A number below `2 ^ (n + 53)` has at most `n` excess bits. -/
theorem excessBits_le (fuel : Nat) :
    ∀ M n : Nat, M < 2 ^ n * 9007199254740992 → excessBits fuel M ≤ n := by
  induction fuel with
  | zero => intro M n _; simp [excessBits]
  | succ fuel ih =>
    intro M n h
    unfold excessBits
    by_cases hM : M < 9007199254740992
    · simp [hM]
    · simp only [hM, if_false]
      cases n with
      | zero => simp at h; exact absurd h hM
      | succ n =>
        rw [Nat.pow_succ] at h
        have := ih (M / 2) n (by omega)
        omega

/-- Rounding does not pass a point `Y` of the grid of `M` when `M` lies below the
midpoint above `Y`. -/
theorem round53_le (M Y : Nat) (hdvd : 2 ^ excessBits M M ∣ Y)
    (hlt : 2 * M < 2 * Y + 2 ^ excessBits M M) : round53 M ≤ Y := by
  obtain ⟨c, hc⟩ := hdvd
  have hP : 0 < 2 ^ excessBits M M := Nat.two_pow_pos _
  have hM := Nat.div_add_mod M (2 ^ excessBits M M)
  unfold round53
  simp only
  generalize 2 ^ excessBits M M = P at *
  generalize M / P = q at *
  generalize M % P = rem at *
  subst hc
  split
  · rename_i hcond
    have h2 : P ≤ 2 * rem := by rcases hcond with h | ⟨h, _⟩ <;> omega
    have h3 : P * (2 * q + 1) < P * (2 * c + 1) := by
      have e1 : P * (2 * q + 1) = 2 * (P * q) + P := by ring
      have e2 : P * (2 * c + 1) = 2 * (P * c) + P := by ring
      omega
    have h4 := Nat.lt_of_mul_lt_mul_left h3
    have h5 : q + 1 ≤ c := by omega
    calc (q + 1) * P ≤ c * P := Nat.mul_le_mul_right P h5
      _ = P * c := Nat.mul_comm _ _
  · have h3 : P * (2 * q) < P * (2 * c + 1) := by
      have e1 : P * (2 * q) = 2 * (P * q) := by ring
      have e2 : P * (2 * c + 1) = 2 * (P * c) + P := by ring
      omega
    have h4 := Nat.lt_of_mul_lt_mul_left h3
    have h5 : q ≤ c := by omega
    calc q * P ≤ c * P := Nat.mul_le_mul_right P h5
      _ = P * c := Nat.mul_comm _ _

/-- For `D` strictly inside its binade (`2 ^ b < 2 * D`, `D < 2 ^ b`), a number at most
`D * 2 ^ 53 - D` rounds to a float64 strictly below `D * 2 ^ 53`: at most the float64
just before it. -/
theorem round53_strict (D b M : Nat) (hdvd : 2 ^ b ∣ D * 9007199254740992)
    (hD : D < 2 ^ b) (hD2 : 2 ^ b < 2 * D) (hM : M + D ≤ D * 9007199254740992) :
    round53 M + 2 ^ b ≤ D * 9007199254740992 := by
  have hlt : M < 2 ^ b * 9007199254740992 := by omega
  have hs : excessBits M M ≤ b := excessBits_le M M b hlt
  have hMlt := excessBits_lt M M (Nat.le_refl M)
  have hPB : 2 ^ excessBits M M ∣ 2 ^ b := Nat.pow_dvd_pow 2 hs
  have hBT : 2 ^ b ≤ D * 9007199254740992 := by omega
  have hY : 2 ^ excessBits M M ∣ D * 9007199254740992 - 2 ^ b :=
    Nat.dvd_sub' (Nat.dvd_trans hPB hdvd) hPB
  have key : 2 * M < 2 * (D * 9007199254740992 - 2 ^ b) + 2 ^ excessBits M M := by
    rcases Nat.lt_or_ge (excessBits M M) b with hsb | hsb
    · -- a lower binade
      have h2P : 2 * 2 ^ excessBits M M ≤ 2 ^ b := by
        have := Nat.pow_le_pow_right (by decide : 0 < 2) hsb
        rw [Nat.pow_succ] at this
        omega
      obtain ⟨t, ht⟩ := hdvd
      have ht2 : 2 ^ b * 9007199254740992 < 2 ^ b * (2 * t) := by
        have e : 2 ^ b * (2 * t) = 2 * (2 ^ b * t) := by ring
        rw [e, ← ht]
        omega
      have ht3 := Nat.lt_of_mul_lt_mul_left ht2
      have ht4 : 2 ^ b * 4503599627370497 ≤ 2 ^ b * t := Nat.mul_le_mul_left _ (by omega)
      rw [← ht] at ht4
      omega
    · have hsb' : excessBits M M = b := Nat.le_antisymm hs hsb
      rw [hsb']
      omega
  have := round53_le M (D * 9007199254740992 - 2 ^ b) hY key
  omega

/-- The literal used for `2 ^ 53`. -/
theorem two53_eq : (9007199254740992 : Nat) = 2 ^ 53 := by norm_num

/-- The first product `delta * r` of `randSleepTime`, for `r ≤ 1 - 2 ^ (-53)`: it is at
most `delta * (1 - 2 ^ (-53))`. -/
theorem round53_step1 (delta m : Nat) (hd : 1 ≤ delta) (hd53 : delta < 9007199254740992)
    (hm : m < 9007199254740992) :
    round53 (delta * m) + delta ≤ delta * 9007199254740992 := by
  have hd0 : delta ≠ 0 := by omega
  have hlo := Nat.log2_self_le hd0
  have hhi := @Nat.lt_log2_self delta
  have hmul : delta * (m + 1) ≤ delta * 9007199254740992 := Nat.mul_le_mul_left _ (by omega)
  have hmul' : delta * (m + 1) = delta * m + delta := by ring
  rcases Nat.lt_or_ge (2 ^ delta.log2) delta with hlt | hge
  · -- not a power of two
    have hb : delta.log2 + 1 ≤ 53 := by
      have : delta.log2 < 53 := (Nat.log2_lt hd0).2 (by rw [← two53_eq]; exact hd53)
      omega
    have hdvd : 2 ^ (delta.log2 + 1) ∣ delta * 9007199254740992 := by
      rw [two53_eq]
      exact Dvd.dvd.mul_left (Nat.pow_dvd_pow 2 hb) _
    have hD2 : 2 ^ (delta.log2 + 1) < 2 * delta := by
      rw [Nat.pow_succ]
      omega
    have := round53_strict delta (delta.log2 + 1) (delta * m) hdvd hhi hD2 (by omega)
    omega
  · -- a power of two: the product is exact
    have heq : 2 ^ delta.log2 = delta := Nat.le_antisymm hlo hge
    have hlt : delta * m < 2 ^ delta.log2 * 9007199254740992 := by
      rw [heq]
      exact Nat.mul_lt_mul_of_pos_left hm (by omega)
    have hs := excessBits_le (delta * m) (delta * m) delta.log2 hlt
    have hdvd : 2 ^ excessBits (delta * m) (delta * m) ∣ delta * m := by
      refine Nat.dvd_trans (Nat.pow_dvd_pow 2 hs) ?_
      rw [heq]
      exact Nat.dvd_mul_right _ _
    have hP : 0 < 2 ^ excessBits (delta * m) (delta * m) := Nat.two_pow_pos _
    have := round53_le (delta * m) (delta * m) hdvd (by omega)
    omega

/-- The second product, by `1e6`: it stays strictly below `delta * 10 ^ 6`. -/
theorem round53_step2 (delta X : Nat) (hd : 1 ≤ delta) (hdlt : delta < 34359738368)
    (hX : X + delta ≤ delta * 9007199254740992) :
    round53 (X * 1000000) < delta * 1000000 * 9007199254740992 := by
  have hD0 : delta * 1000000 ≠ 0 := by omega
  have hlo := Nat.log2_self_le hD0
  have hhi := @Nat.lt_log2_self (delta * 1000000)
  have hne : 2 ^ (delta * 1000000).log2 ≠ delta * 1000000 := by
    intro h
    have h5 : 5 ∣ 2 ^ (delta * 1000000).log2 := by
      rw [h]
      exact Dvd.dvd.mul_left (by norm_num) _
    have := Nat.Prime.dvd_of_dvd_pow Nat.prime_five h5
    omega
  have hb : (delta * 1000000).log2 + 1 ≤ 59 := by
    have : (delta * 1000000).log2 < 55 := (Nat.log2_lt hD0).2 (by norm_num; omega)
    omega
  have hdvd : 2 ^ ((delta * 1000000).log2 + 1) ∣ delta * 1000000 * 9007199254740992 := by
    have e : delta * 1000000 * 9007199254740992 = delta * 15625 * 2 ^ 59 := by
      norm_num
      ring
    rw [e]
    exact Dvd.dvd.mul_left (Nat.pow_dvd_pow 2 hb) _
  have hD2 : 2 ^ ((delta * 1000000).log2 + 1) < 2 * (delta * 1000000) := by
    rw [Nat.pow_succ]
    omega
  have := round53_strict (delta * 1000000) ((delta * 1000000).log2 + 1) (X * 1000000) hdvd hhi
    hD2 (by omega)
  have hP : 0 < 2 ^ ((delta * 1000000).log2 + 1) := Nat.two_pow_pos _
  omega

/-- The truncated float64 product of `randSleepTime` is below `delta * 10 ^ 6`
microseconds. -/
theorem product_lt (delta m j : Nat) (hd : 1 ≤ delta) (hdlt : delta < 34359738368)
    (hm : m < 9007199254740992) :
    round53 (round53 (delta * m) * 1000000) / 2 ^ (53 + j) < delta * 1000000 := by
  have h1 := round53_step1 delta m hd (by omega) hm
  have h2 := round53_step2 delta (round53 (delta * m)) hd hdlt h1
  have hle : round53 (round53 (delta * m) * 1000000) / 2 ^ (53 + j) ≤
      round53 (round53 (delta * m) * 1000000) / 9007199254740992 := by
    refine Nat.div_le_div_left ?_ (by norm_num)
    rw [Nat.pow_add, ← two53_eq]
    exact Nat.le_mul_of_pos_right _ (Nat.two_pow_pos j)
  have hlt : round53 (round53 (delta * m) * 1000000) / 9007199254740992 < delta * 1000000 :=
    (Nat.div_lt_iff_lt_mul (by norm_num)).2 h2
  omega

/-- A number of at most 53 bits is a float64: rounding keeps it. -/
theorem round53_small (M : Nat) (h : M < 9007199254740992) : round53 M = M := by
  have hs : excessBits M M = 0 := by
    cases M with
    | zero => rfl
    | succ n => simp [excessBits, h]
  simp [round53, hs, Nat.mod_one]

/-- C15 (as the claim states it, refuted): with the default configuration (1s to
5s) and the draw `r = 4722366482869645 / 2 ^ 53`, the float64 product
`4 * r * 1e6` rounds up to `2097152` while `floor (4 * r * 10 ^ 6)` is `2097151`:
`randSleepTime` is one microsecond above the stated value. And with
`MinPollSeconds = 9223372037`, `MaxPollSeconds = 9223372038` and the draw 0 the
duration overflows to a negative one, below `MinPollSeconds` seconds. -/
theorem randSleepTime_counterexample :
    4722366482869645 < 2 ^ 53 ∧
    (4 * 4722366482869645 * 10 ^ 6) / 2 ^ 53 = 2097151 ∧
    randSleepTime New 4722366482869645 0 = 1 * Second + 2097152 * Microsecond ∧
    randSleepTime New 4722366482869645 0 ≠ 1 * Second + 2097151 * Microsecond ∧
    randSleepTime { New with MinPollSeconds := 9223372037, MaxPollSeconds := 9223372038 } 0 0
      < 9223372037 * Second := by
  decide

/-- C15 (amended): for every configuration with
`-9223372036 ≤ MinPollSeconds < MaxPollSeconds ≤ 9223372036` (the durations fit 64-bit
nanoseconds) and every float64 draw `r = mant / 2 ^ (53 + exp)` in `[0, 1)`,
`randSleepTime` returns a duration `d` with `MinPollSeconds` seconds `≤ d <`
`MaxPollSeconds` seconds, computed as `MinPollSeconds` seconds plus the float64
product `(MaxPollSeconds - MinPollSeconds) * r * 10 ^ 6`, each multiplication
rounded to nearest, truncated to whole microseconds. -/
theorem randSleepTime_bounds (s : Storage) (mant exp : Nat)
    (hmin : -9223372036 ≤ s.MinPollSeconds) (hlt : s.MinPollSeconds < s.MaxPollSeconds)
    (hmax : s.MaxPollSeconds ≤ 9223372036) (hm : mant < 9007199254740992) :
    s.MinPollSeconds * Second ≤ randSleepTime s mant exp ∧
    randSleepTime s mant exp < s.MaxPollSeconds * Second ∧
    randSleepTime s mant exp =
      s.MinPollSeconds * Second + Microsecond *
        ((round53 (round53 ((s.MaxPollSeconds - s.MinPollSeconds).toNat * mant) * 1000000) /
          2 ^ (53 + exp) : Nat) : Int) := by
  have hdelta : wrap64 (wrap64 s.MaxPollSeconds - wrap64 s.MinPollSeconds) =
      s.MaxPollSeconds - s.MinPollSeconds := by
    unfold wrap64
    omega
  have hnat : (s.MaxPollSeconds - s.MinPollSeconds).natAbs =
      (s.MaxPollSeconds - s.MinPollSeconds).toNat := by omega
  have hd1 : 1 ≤ (s.MaxPollSeconds - s.MinPollSeconds).toNat := by omega
  have hd2 : (s.MaxPollSeconds - s.MinPollSeconds).toNat < 34359738368 := by omega
  have hcast : (((s.MaxPollSeconds - s.MinPollSeconds).toNat : Nat) : Int) =
      s.MaxPollSeconds - s.MinPollSeconds := by omega
  have hT := product_lt (s.MaxPollSeconds - s.MinPollSeconds).toNat mant exp hd1 hd2 hm
  have hpos : ¬ (s.MaxPollSeconds - s.MinPollSeconds < 0) := by omega
  have heq : randSleepTime s mant exp =
      s.MinPollSeconds * Second + Microsecond *
        ((round53 (round53 ((s.MaxPollSeconds - s.MinPollSeconds).toNat * mant) * 1000000) /
          2 ^ (53 + exp) : Nat) : Int) := by
    simp only [randSleepTime, hdelta, hnat, round53_small _ (by omega :
      (s.MaxPollSeconds - s.MinPollSeconds).toNat < 9007199254740992), hpos, decide_False]
    generalize round53 (round53 ((s.MaxPollSeconds - s.MinPollSeconds).toNat * mant) * 1000000) /
      2 ^ (53 + exp) = T at hT ⊢
    have hT63 : T < 9223372036854775808 := by omega
    simp only [toInt64, hT63, if_true, Bool.false_eq_true, if_false]
    unfold wrap64 Second Microsecond
    omega
  refine ⟨?_, ?_, heq⟩
  · rw [heq]
    generalize round53 (round53 ((s.MaxPollSeconds - s.MinPollSeconds).toNat * mant) * 1000000) /
      2 ^ (53 + exp) = T
    unfold Second Microsecond
    omega
  · rw [heq]
    generalize round53 (round53 ((s.MaxPollSeconds - s.MinPollSeconds).toNat * mant) * 1000000) /
      2 ^ (53 + exp) = T at hT ⊢
    unfold Second Microsecond
    omega

/-- Witness of `randSleepTime_bounds`: the configuration of the package test (10s to
20s) and the draw `1 / 2`. -/
theorem randSleepTime_bounds_witness :
    10 * Second ≤ randSleepTime { New with MinPollSeconds := 10, MaxPollSeconds := 20 }
      4503599627370496 0 ∧
    randSleepTime { New with MinPollSeconds := 10, MaxPollSeconds := 20 } 4503599627370496 0
      < 20 * Second ∧
    randSleepTime { New with MinPollSeconds := 10, MaxPollSeconds := 20 } 4503599627370496 0
      = 15 * Second :=
  have h := randSleepTime_bounds { New with MinPollSeconds := 10, MaxPollSeconds := 20 }
    4503599627370496 0 (by decide) (by decide) (by decide) (by decide)
  ⟨h.1, h.2.1, by decide⟩

end Storagefirestore
